import Mathlib

/-!
Verification development for the rocketmq-rs client core: a shallow
embedding, in Lean 4, of the wire-protocol codec (`src/protocol`), the
consumer queue-allocation strategies (`src/consumer/strategy.rs`), the
producer queue selectors (`src/producer/selector.rs`,
`src/route.rs`), the name-server route resolver (`src/namesrv.rs`) and
the request-signing / connection-management paths of the remoting
client (`src/remoting/client.rs`), together with theorems settling the
specification's claims about them.

Modelling conventions:
* A Rust `String` / `&str` is modelled as its UTF-8 byte sequence,
  `Str := List Nat`; `.len()` is the list length (Rust string length is
  in bytes).
* `HashMap<K, V>` is modelled as an association list whose list order
  stands for the map's (arbitrary) iteration order; `insert` replaces
  in place.  Map equality is lookup equivalence (`ExtEquiv`).
* Machine integers are `Nat` / `Int` with explicit `% 2 ^ w` at the
  points where the Rust code casts or wraps.
* A Rust operation that panics (index out of bounds, `x % 0`,
  debug-mode subtraction overflow, `.unwrap()` on an error) is made
  explicit in the return type of the embedded function (an `Option`
  with `none` for the panic, or a dedicated `panicked` constructor).
-/

namespace RocketMQ

/-- UTF-8 byte string standing for a Rust `String` / `&str`. -/
abbrev Str := List Nat

/-- `message.rs`: `MessageQueue { topic, broker_name, queue_id: u32 }`. -/
structure MessageQueue where
  topic : Str
  broker_name : Str
  queue_id : Nat
deriving DecidableEq, Repr

/-- Default element used for Rust indexing that is provably in bounds. -/
def mq0 : MessageQueue := ⟨[], [], 0⟩

/-! ## Consumer allocation strategies (`src/consumer/strategy.rs`) -/

/-- Rust `str::split('@')` specialised to one separator byte: the list of
(sub)strings between occurrences of `sep`; always non-empty. -/
def splitOnByte (sep : Nat) : Str → List Str
  | [] => [[]]
  | b :: rest =>
    let r := splitOnByte sep rest
    if b == sep then [] :: r
    else
      match r with
      | h :: t => (b :: h) :: t
      | [] => [[b]]

/-- `AllocateAveragely::allocate`.  The final indexing
`mq_all[(start_index + i) % mq_size]` is always in bounds (the index is
reduced modulo the length), so `List.getD` with the `mq0` default is an
exact model. -/
def allocateAveragely (_group cid : Str) (mqs : List MessageQueue)
    (cids : List Str) : List MessageQueue :=
  if cid.isEmpty || mqs.isEmpty || cids.isEmpty then []
  else
    match cids.findIdx? (fun c => c == cid) with
    | none => []
    | some index =>
      let mq_size := mqs.length
      let cid_size := cids.length
      let modulo := mq_size % cid_size
      let avg_size :=
        if mq_size ≤ cid_size then 1
        else if 0 < modulo ∧ index < modulo then mq_size / cid_size + 1
        else mq_size / cid_size
      let start_index :=
        if 0 < modulo ∧ index < modulo then index * avg_size
        else index * avg_size + modulo
      if mq_size < start_index then []
      else
        let num := min avg_size (mq_size - start_index)
        (List.range num).map (fun i => mqs.getD ((start_index + i) % mq_size) mq0)

/-- `AllocateAveragelyByCircle::allocate`. -/
def allocateAveragelyByCircle (_group cid : Str) (mqs : List MessageQueue)
    (cids : List Str) : List MessageQueue :=
  if cid.isEmpty || mqs.isEmpty || cids.isEmpty then []
  else
    match cids.findIdx? (fun c => c == cid) with
    | none => []
    | some index =>
      (mqs.enum.filterMap (fun p =>
        if p.1 % cids.length == index then some p.2 else none))

/-- `AllocateByConfig::allocate`: returns the configured list, ignoring
every argument. -/
def allocateByConfig (cfg : List MessageQueue) (_group _cid : Str)
    (_mqs : List MessageQueue) (_cids : List Str) : List MessageQueue :=
  cfg

/-- The filter used by `AllocateByMachineRoom::allocate`: the broker name
splits on `'@'` (byte 64) into exactly two parts and the first part is in
the configured idc set (the `HashSet<String>` is modelled by a list with
membership via `contains`). -/
def machineRoomPred (idcs : List Str) (mq : MessageQueue) : Bool :=
  let parts := splitOnByte 64 mq.broker_name
  parts.length == 2 && idcs.contains (parts.getD 0 [])

/-- `AllocateByMachineRoom::allocate`.  Note (faithful to the source):
the contiguous slice `mq_all[start_index..end_index]` is taken from the
UNFILTERED queue list, while the remainder element is taken from the
filtered `premq_all`.  Both accesses are provably in bounds
(`end_index ≤ premq_all.len() ≤ mq_all.len()` and
`index + modulo * cid_all.len() < premq_all.len()` whenever `rem > index`),
so `drop/take` and `getD` model them exactly. -/
def allocateByMachineRoom (idcs : List Str) (_group cid : Str)
    (mqs : List MessageQueue) (cids : List Str) : List MessageQueue :=
  if cid.isEmpty || mqs.isEmpty || cids.isEmpty then []
  else
    match cids.findIdx? (fun c => c == cid) with
    | none => []
    | some index =>
      let premq := mqs.filter (machineRoomPred idcs)
      let modulo := premq.length / cids.length
      let rem := premq.length % cids.length
      let start_index := modulo * index
      let slice := (mqs.drop start_index).take modulo
      if index < rem then slice ++ [premq.getD (index + modulo * cids.length) mq0]
      else slice

/-- `AllocateConsistentHash::allocate`.  The consistent-hash ring of the
`consistent_hash_ring` crate (built over `cid_all` with
`virtual_node_count` vnodes and queried at `format!("{:?}", mq)`) is an
external dependency; it enters the model as the oracle `ringGet`.  The
guard logic around it is embedded exactly. -/
def allocateConsistentHash (ringGet : Nat → List Str → MessageQueue → Option Str)
    (vnodes : Nat) (_group cid : Str) (mqs : List MessageQueue)
    (cids : List Str) : List MessageQueue :=
  if cid.isEmpty || mqs.isEmpty || cids.isEmpty then []
  else if cids.contains cid then
    mqs.filter (fun mq =>
      match ringGet vnodes cids mq with
      | some node => cid == node
      | none => false)
  else []

/-- `AllocateStrategy`: the five strategy variants. -/
inductive AllocateStrategy where
  | averagely
  | averagelyByCircle
  | config (cfg : List MessageQueue)
  | machineRoom (idcs : List Str)
  | consistentHash (vnodes : Nat)

/-- `AllocateStrategy::allocate`: dispatch to the variant. -/
def AllocateStrategy.allocate (ringGet : Nat → List Str → MessageQueue → Option Str)
    (s : AllocateStrategy) (group cid : Str) (mqs : List MessageQueue)
    (cids : List Str) : List MessageQueue :=
  match s with
  | .averagely => allocateAveragely group cid mqs cids
  | .averagelyByCircle => allocateAveragelyByCircle group cid mqs cids
  | .config cfg => allocateByConfig cfg group cid mqs cids
  | .machineRoom idcs => allocateByMachineRoom idcs group cid mqs cids
  | .consistentHash v => allocateConsistentHash ringGet v group cid mqs cids

/-! ### Helper lemmas on `findIdx?` / guards -/

theorem findIdx?_eq_none_of_not_mem {cid : Str} {cids : List Str}
    (h : cid ∉ cids) : cids.findIdx? (fun c => c == cid) = none := by
  induction cids with
  | nil => rfl
  | cons a t ih =>
    rw [List.findIdx?_cons]
    have ha : ¬ a == cid := by
      simp only [beq_iff_eq]
      intro hac
      exact h (hac ▸ List.mem_cons_self a t)
    simp only [ha]
    simp only [Bool.false_eq_true, if_false]
    have := ih (fun hm => h (List.mem_cons_of_mem a hm))
    simp [this]

theorem findIdx?_lt_length {cid : Str} {cids : List Str} {i : Nat}
    (h : cids.findIdx? (fun c => c == cid) = some i) : i < cids.length := by
  induction cids generalizing i with
  | nil => simp [List.findIdx?] at h
  | cons a t ih =>
    rw [List.findIdx?_cons] at h
    by_cases ha : a == cid
    · simp [ha] at h
      simp only [List.length_cons]
      omega
    · simp [ha] at h
      obtain ⟨j, hj, rfl⟩ := h
      have := ih hj
      simp only [List.length_cons]
      omega

/-! ### Claim C3: defensive contract of the five strategies -/

/-- C3 (amended): under a degenerate input (empty consumer id, empty
queue list, empty id list, or id not present), the Averagely,
AveragelyByCircle, MachineRoom and ConsistentHash strategies return the
empty allocation, while the Config strategy returns its configured list
verbatim (so it satisfies the contract only when that list is empty). -/
theorem c3_allocate_defensive
    (ringGet : Nat → List Str → MessageQueue → Option Str)
    (s : AllocateStrategy) (group cid : Str) (mqs : List MessageQueue)
    (cids : List Str)
    (h : cid = [] ∨ mqs = [] ∨ cids = [] ∨ cid ∉ cids) :
    AllocateStrategy.allocate ringGet s group cid mqs cids =
      match s with
      | .config cfg => cfg
      | _ => [] := by
  rcases h with rfl | rfl | rfl | h
  · cases s <;>
      simp [AllocateStrategy.allocate, allocateAveragely,
        allocateAveragelyByCircle, allocateByConfig, allocateByMachineRoom,
        allocateConsistentHash]
  · cases s <;>
      simp [AllocateStrategy.allocate, allocateAveragely,
        allocateAveragelyByCircle, allocateByConfig, allocateByMachineRoom,
        allocateConsistentHash]
  · cases s <;>
      simp [AllocateStrategy.allocate, allocateAveragely,
        allocateAveragelyByCircle, allocateByConfig, allocateByMachineRoom,
        allocateConsistentHash]
  · have hf := findIdx?_eq_none_of_not_mem (h : cid ∉ cids)
    have hc : cids.contains cid = false := by
      simpa using h
    cases s <;>
      simp [AllocateStrategy.allocate, allocateAveragely,
        allocateAveragelyByCircle, allocateByConfig, allocateByMachineRoom,
        allocateConsistentHash, hf, hc]
    intro _ _ _ hmem
    exact absurd hmem h

/-- Witness for C3 at a concrete degenerate input. -/
theorem c3_allocate_defensive_witness :
    AllocateStrategy.allocate (fun _ _ _ => none) .averagely [] [] [mq0]
      [[107]] = [] :=
  c3_allocate_defensive (fun _ _ _ => none) .averagely [] [] [mq0] [[107]]
    (Or.inl rfl)

/-- Counterexample to C3 as stated: the Config strategy ignores the
degenerate-input contract; with an empty consumer id it still returns
its configured (non-empty) list. -/
theorem c3_counterexample :
    AllocateStrategy.allocate (fun _ _ _ => none) (.config [mq0]) [] [] []
      [] = [mq0] ∧ [mq0] ≠ ([] : List MessageQueue) := by
  constructor
  · rfl
  · simp

/-! ### Claim C6: the Averagely strategy's slice formula -/

theorem isEmpty_false_of_ne_nil {α} {l : List α} (h : l ≠ []) :
    l.isEmpty = false := by
  cases l with
  | nil => exact absurd rfl h
  | cons a t => rfl

theorem getD_mod_congr (l : List MessageQueue) (a b n : Nat) (h : a = b) :
    l.getD (a % n) mq0 = l.getD (b % n) mq0 := by
  rw [h]

/-- Core characterization behind C6: for a valid input, `AllocateAveragely`
returns the contiguous slice (taken modulo the queue count) of length
`base + (1 if idx < remainder)` starting at `idx * base + min idx remainder`. -/
theorem allocateAveragely_slice (group cid : Str) (mqs : List MessageQueue)
    (cids : List Str) (index : Nat) (hcid : cid ≠ []) (hmqs : mqs ≠ [])
    (hfind : cids.findIdx? (fun c => c == cid) = some index) :
    allocateAveragely group cid mqs cids =
      (List.range (mqs.length / cids.length +
          if index < mqs.length % cids.length then 1 else 0)).map
        (fun i => mqs.getD
          ((index * (mqs.length / cids.length) +
            min index (mqs.length % cids.length) + i) % mqs.length) mq0) := by
  have hiM : index < cids.length := findIdx?_lt_length hfind
  have hMpos : 0 < cids.length := Nat.lt_of_le_of_lt (Nat.zero_le _) hiM
  have hNpos : 0 < mqs.length := List.length_pos.mpr hmqs
  have h1 := isEmpty_false_of_ne_nil hcid
  have h2 := isEmpty_false_of_ne_nil hmqs
  have h3 := isEmpty_false_of_ne_nil (List.ne_nil_of_length_pos hMpos)
  unfold allocateAveragely
  rw [h1, h2, h3]
  simp only [Bool.or_self, Bool.or_false, Bool.false_eq_true, if_false, hfind]
  set N := mqs.length with hN
  set M := cids.length with hM
  set q := N / M with hq
  set r := N % M with hr
  have hqr : M * q + r = N := Nat.div_add_mod N M
  have hrM : r < M := Nat.mod_lt _ hMpos
  by_cases hle : N ≤ M
  · rw [if_pos hle]
    rcases Nat.lt_or_ge N M with hlt | hge
    · -- N < M: base = 0, remainder = N
      have hq0 : q = 0 := Nat.div_eq_of_lt hlt
      have hrN : r = N := Nat.mod_eq_of_lt hlt
      by_cases hc : 0 < r ∧ index < r
      · rw [if_pos hc]
        have hstart : ¬ N < index * 1 := by omega
        rw [if_neg hstart]
        have hnum : min 1 (N - index * 1) = 1 := by omega
        rw [hnum, if_pos (hrN ▸ hc.2 : index < r)]
        have hcnt : q + 1 = 1 := by omega
        rw [hcnt]
        apply List.map_congr_left
        intro i _
        apply getD_mod_congr
        have hiq : index * q = 0 := by simp [hq0]
        omega
      · rw [if_neg hc]
        have hige : N ≤ index := by omega
        have hstart : N < index * 1 + r := by omega
        rw [if_pos hstart, if_neg (by omega : ¬ index < r)]
        have hcnt : q + 0 = 0 := by omega
        rw [hcnt]
        simp
    · -- N = M (given N ≤ M): base = 1, remainder = 0
      have hNM : N = M := Nat.le_antisymm hle hge
      have hq1 : q = 1 := by rw [hq, hNM]; exact Nat.div_self hMpos
      have hr0 : r = 0 := by rw [hr, hNM]; exact Nat.mod_self M
      have hc : ¬ (0 < r ∧ index < r) := by omega
      rw [if_neg hc]
      have hstart : ¬ N < index * 1 + r := by omega
      rw [if_neg hstart]
      have hnum : min 1 (N - (index * 1 + r)) = 1 := by omega
      rw [hnum, if_neg (by omega : ¬ index < r)]
      have hcnt : q + 0 = 1 := by omega
      rw [hcnt]
      apply List.map_congr_left
      intro i _
      apply getD_mod_congr
      have hiq : index * q = index := by simp [hq1]
      omega
  · rw [if_neg hle]
    have hMN : M < N := Nat.lt_of_not_le hle
    have hq1 : 1 ≤ q := (Nat.one_le_div_iff hMpos).mpr (Nat.le_of_lt hMN)
    by_cases hc : 0 < r ∧ index < r
    · rw [if_pos hc, if_pos hc]
      have hkey : index * (q + 1) + (q + 1) ≤ N := by
        have h5 : (index + 1) * (q + 1) ≤ r * (q + 1) :=
          Nat.mul_le_mul_right _ hc.2
        have h6 : r * (q + 1) = r * q + r := by ring
        have h7 : r * q ≤ M * q := Nat.mul_le_mul_right _ (Nat.le_of_lt hrM)
        have h8 : (index + 1) * (q + 1) = index * (q + 1) + (q + 1) := by ring
        omega
      rw [if_neg (by omega : ¬ N < index * (q + 1))]
      have hnum : min (q + 1) (N - index * (q + 1)) = q + 1 := by omega
      rw [hnum, if_pos hc.2]
      apply List.map_congr_left
      intro i _
      apply getD_mod_congr
      have hms : index * (q + 1) = index * q + index := by ring
      omega
    · rw [if_neg hc, if_neg hc]
      have hkey : index * q + q ≤ M * q := by
        have h5 : (index + 1) * q ≤ M * q := Nat.mul_le_mul_right _ hiM
        have h8 : (index + 1) * q = index * q + q := by ring
        omega
      rw [if_neg (by omega : ¬ N < index * q + r)]
      have hnum : min q (N - (index * q + r)) = q := by omega
      rw [hnum, if_neg (by omega : ¬ index < r)]
      apply List.map_congr_left
      intro i _
      apply getD_mod_congr
      omega

/-- C6: the Averagely allocation gives the member at index `idx` exactly
`base = N / M` queues plus one extra when `idx < N % M`, as the contiguous
slice of the queue list starting at `idx * base + min idx (N % M)` (taken
modulo `N`); and the worked 6-queue examples: with ids `[A, B]`, A gets
positions 0-2 and B gets 3-5; with ids `[A, B, C]`, the members get
`[0, 1]`, `[2, 3]`, `[4, 5]` — 2 contiguous queues each, disjoint, and
jointly covering all 6 positions. -/
theorem c6_averagely_characterization :
    (∀ (group cid : Str) (mqs : List MessageQueue) (cids : List Str)
      (index : Nat), cid ≠ [] → mqs ≠ [] →
      cids.findIdx? (fun c => c == cid) = some index →
      allocateAveragely group cid mqs cids =
        (List.range (mqs.length / cids.length +
            if index < mqs.length % cids.length then 1 else 0)).map
          (fun i => mqs.getD
            ((index * (mqs.length / cids.length) +
              min index (mqs.length % cids.length) + i) % mqs.length) mq0))
    ∧ allocateAveragely [] [65]
        [⟨[], [], 0⟩, ⟨[], [], 1⟩, ⟨[], [], 2⟩, ⟨[], [], 3⟩, ⟨[], [], 4⟩,
          ⟨[], [], 5⟩] [[65], [66]] =
        [⟨[], [], 0⟩, ⟨[], [], 1⟩, ⟨[], [], 2⟩]
    ∧ allocateAveragely [] [66]
        [⟨[], [], 0⟩, ⟨[], [], 1⟩, ⟨[], [], 2⟩, ⟨[], [], 3⟩, ⟨[], [], 4⟩,
          ⟨[], [], 5⟩] [[65], [66]] =
        [⟨[], [], 3⟩, ⟨[], [], 4⟩, ⟨[], [], 5⟩]
    ∧ allocateAveragely [] [65]
        [⟨[], [], 0⟩, ⟨[], [], 1⟩, ⟨[], [], 2⟩, ⟨[], [], 3⟩, ⟨[], [], 4⟩,
          ⟨[], [], 5⟩] [[65], [66], [67]] =
        [⟨[], [], 0⟩, ⟨[], [], 1⟩]
    ∧ allocateAveragely [] [66]
        [⟨[], [], 0⟩, ⟨[], [], 1⟩, ⟨[], [], 2⟩, ⟨[], [], 3⟩, ⟨[], [], 4⟩,
          ⟨[], [], 5⟩] [[65], [66], [67]] =
        [⟨[], [], 2⟩, ⟨[], [], 3⟩]
    ∧ allocateAveragely [] [67]
        [⟨[], [], 0⟩, ⟨[], [], 1⟩, ⟨[], [], 2⟩, ⟨[], [], 3⟩, ⟨[], [], 4⟩,
          ⟨[], [], 5⟩] [[65], [66], [67]] =
        [⟨[], [], 4⟩, ⟨[], [], 5⟩] :=
  ⟨allocateAveragely_slice, by decide, by decide, by decide, by decide,
    by decide⟩

/-- Witness for C6: the general slice formula applied at the first
6-queue / 2-member example, with every hypothesis discharged concretely. -/
theorem c6_averagely_witness :
    allocateAveragely [] [65]
      [⟨[], [], 0⟩, ⟨[], [], 1⟩, ⟨[], [], 2⟩, ⟨[], [], 3⟩, ⟨[], [], 4⟩,
        ⟨[], [], 5⟩] [[65], [66]] =
      (List.range (6 / 2 + if 0 < 6 % 2 then 1 else 0)).map
        (fun i => List.getD
          [⟨[], [], 0⟩, ⟨[], [], 1⟩, ⟨[], [], 2⟩, ⟨[], [], 3⟩, ⟨[], [], 4⟩,
            ⟨[], [], 5⟩] ((0 * (6 / 2) + min 0 (6 % 2) + i) % 6) mq0) :=
  c6_averagely_characterization.1 [] [65] _ [[65], [66]] 0
    (by decide) (by decide) (by decide)

/-! ### Claim C7: the MachineRoom strategy -/

/-- C7 (amended): for a valid input, MachineRoom filters the queues by
the "idc@broker" allow-set, but the even slice of length `F / M` starting
at `(F / M) * idx` is taken from the FULL queue list; only the remainder
element (present when `idx < F % M`) is taken from the filtered list, at
position `idx + (F / M) * M` — and that element always belongs to the
filtered list. -/
theorem c7_machine_room_characterization :
    ∀ (idcs : List Str) (group cid : Str) (mqs : List MessageQueue)
      (cids : List Str) (index : Nat), cid ≠ [] → mqs ≠ [] →
      cids.findIdx? (fun c => c == cid) = some index →
      (allocateByMachineRoom idcs group cid mqs cids =
        (mqs.drop ((mqs.filter (machineRoomPred idcs)).length / cids.length
              * index)).take
            ((mqs.filter (machineRoomPred idcs)).length / cids.length) ++
          (if index <
              (mqs.filter (machineRoomPred idcs)).length % cids.length then
            [(mqs.filter (machineRoomPred idcs)).getD
              (index + (mqs.filter (machineRoomPred idcs)).length /
                cids.length * cids.length) mq0]
          else []))
      ∧ ∀ mq ∈ (if index <
              (mqs.filter (machineRoomPred idcs)).length % cids.length then
            [(mqs.filter (machineRoomPred idcs)).getD
              (index + (mqs.filter (machineRoomPred idcs)).length /
                cids.length * cids.length) mq0]
          else []), mq ∈ mqs.filter (machineRoomPred idcs) := by
  intro idcs group cid mqs cids index hcid hmqs hfind
  have hiM : index < cids.length := findIdx?_lt_length hfind
  have hMpos : 0 < cids.length := Nat.lt_of_le_of_lt (Nat.zero_le _) hiM
  have h1 := isEmpty_false_of_ne_nil hcid
  have h2 := isEmpty_false_of_ne_nil hmqs
  have h3 := isEmpty_false_of_ne_nil (List.ne_nil_of_length_pos hMpos)
  constructor
  · unfold allocateByMachineRoom
    rw [h1, h2, h3]
    simp only [Bool.or_self, Bool.or_false, Bool.false_eq_true, if_false,
      hfind]
    by_cases hrem : index <
        (mqs.filter (machineRoomPred idcs)).length % cids.length
    · rw [if_pos hrem, if_pos hrem]
    · rw [if_neg hrem, if_neg hrem, List.append_nil]
  · intro mq hmq
    by_cases hrem : index <
        (mqs.filter (machineRoomPred idcs)).length % cids.length
    · rw [if_pos hrem, List.mem_singleton] at hmq
      subst hmq
      · have hdm := Nat.div_add_mod
          (mqs.filter (machineRoomPred idcs)).length cids.length
        have hcomm : (mqs.filter (machineRoomPred idcs)).length /
            cids.length * cids.length =
            cids.length *
              ((mqs.filter (machineRoomPred idcs)).length / cids.length) := by
          ring
        have hlt : index + (mqs.filter (machineRoomPred idcs)).length /
            cids.length * cids.length <
            (mqs.filter (machineRoomPred idcs)).length := by omega
        rw [List.getD_eq_getElem _ _ hlt]
        exact List.getElem_mem hlt
    · rw [if_neg hrem] at hmq
      cases hmq

/-- Witness for C7 at the concrete two-queue input (one queue passes the
idc filter, one does not), with all hypotheses discharged. -/
theorem c7_machine_room_witness :
    allocateByMachineRoom [[105, 100, 99]] [] [99]
      [⟨[], [120], 0⟩, ⟨[], [105, 100, 99, 64, 98], 1⟩] [[99]] =
      (List.drop (1 / 1 * 0)
        [(⟨[], [120], 0⟩ : MessageQueue),
          ⟨[], [105, 100, 99, 64, 98], 1⟩]).take (1 / 1) ++
        (if (0 : Nat) < 1 % 1 then
          [List.getD (List.filter (machineRoomPred [[105, 100, 99]])
            [⟨[], [120], 0⟩, ⟨[], [105, 100, 99, 64, 98], 1⟩])
            (0 + 1 / 1 * 1) mq0]
        else []) := by
  have h := (c7_machine_room_characterization [[105, 100, 99]] [] [99]
    [⟨[], [120], 0⟩, ⟨[], [105, 100, 99, 64, 98], 1⟩] [[99]] 0
    (by decide) (by decide) (by decide)).1
  rw [h]
  decide

/-- Counterexample to C7 as stated: the member's even slice comes from
the unfiltered queue list, so it can contain a queue that is NOT in the
idc-filtered list (here the broker name "x" does not even split as
"idc@broker"). -/
theorem c7_counterexample :
    allocateByMachineRoom [[105, 100, 99]] [] [99]
      [⟨[], [120], 0⟩, ⟨[], [105, 100, 99, 64, 98], 1⟩] [[99]] =
      [⟨[], [120], 0⟩] ∧
    (⟨[], [120], 0⟩ : MessageQueue) ∉
      ([(⟨[], [120], 0⟩ : MessageQueue),
        ⟨[], [105, 100, 99, 64, 98], 1⟩].filter
        (machineRoomPred [[105, 100, 99]])) := by
  decide

/-! ## Producer queue selectors (`src/producer/selector.rs`, `src/route.rs`) -/

/-- Modulus of Rust `usize` on the 64-bit targets the crate builds for;
`wrapping_add` and `fetch_add` wrap at this modulus. -/
def USIZE : Nat := 2 ^ 64

/-- `HashMap` lookup on the association-list model. -/
def alookup {β : Type} (m : List (Str × β)) (k : Str) : Option β :=
  match m with
  | [] => none
  | (k', v) :: t => if k' == k then some v else alookup t k

/-- `HashMap::insert` on the association-list model: replace in place or
append. -/
def ainsert {β : Type} (k : Str) (v : β) (m : List (Str × β)) :
    List (Str × β) :=
  match m with
  | [] => [(k, v)]
  | (k', v') :: t => if k' == k then (k, v) :: t else (k', v') :: ainsert k v t

/-- Outcome of `RoundRobinQueueSelector::select`: `panicked` marks the
`% 0` remainder-by-zero panic; otherwise the selected queue (as the
`Option` the Rust code returns) together with the updated per-topic
counter map. -/
inductive SelectOutcome where
  | panicked
  | ok (mq : Option MessageQueue) (counters : List (Str × Nat))
deriving DecidableEq

/-- `RoundRobinQueueSelector::select`: bump (or initialise to 1) the
per-topic counter, then index `counter % mqs.len()` — which is a
remainder by zero, hence a panic, when the queue list is empty. -/
def roundRobinSelect (counters : List (Str × Nat)) (topic : Str)
    (mqs : List MessageQueue) : SelectOutcome :=
  let i := match alookup counters topic with
    | some e => (e + 1) % USIZE
    | none => 1
  let counters' := ainsert topic i counters
  if mqs.isEmpty then .panicked
  else .ok (mqs.get? (i % mqs.length)) counters'

/-- Outcome of `TopicPublishInfo::select_message_queue`: either the `% 0`
panic or the selected queue plus the post-`fetch_add` counter. -/
inductive PubSelectOutcome where
  | panicked
  | ok (mq : MessageQueue) (queue_index : Nat)
deriving DecidableEq

/-- The fields of `TopicPublishInfo` used by queue selection. -/
structure TopicPublishInfo where
  message_queues : List MessageQueue
  queue_index : Nat

/-- `TopicPublishInfo::select_message_queue`: `fetch_add(1)` yields the
previous counter value, which is reduced `% message_queues.len()` —
a panic when the list is empty.  The indexing is in bounds otherwise,
so `getD` is exact. -/
def select_message_queue (info : TopicPublishInfo) : PubSelectOutcome :=
  let new_index := info.queue_index
  if info.message_queues.isEmpty then .panicked
  else .ok (info.message_queues.getD
    (new_index % info.message_queues.length) mq0) ((new_index + 1) % USIZE)

theorem get?_eq_some_getD {l : List MessageQueue} {n : Nat}
    (h : n < l.length) : l.get? n = some (l.getD n mq0) := by
  rw [List.get?_eq_getElem?, List.getElem?_eq_getElem h,
    List.getD_eq_getElem _ _ h]

/-! ### Claim C10 -/

/-- C10: the producer selectors compute `counter % len` without a zero
guard.  On a non-empty list, `RoundRobinQueueSelector::select` returns
`Some` of the queue at `counter % len`, where the per-topic counter is
pre-incremented (first call for a topic uses counter 1), and
`TopicPublishInfo::select_message_queue` returns the queue at the old
counter value `% len`; on the empty list both panic with a
remainder-by-zero. -/
theorem c10_selector_zero_guard :
    (∀ (cs : List (Str × Nat)) (t : Str) (mqs : List MessageQueue)
      (e : Nat), mqs ≠ [] → alookup cs t = some e →
      roundRobinSelect cs t mqs =
        .ok (some (mqs.getD ((e + 1) % USIZE % mqs.length) mq0))
          (ainsert t ((e + 1) % USIZE) cs))
    ∧ (∀ (cs : List (Str × Nat)) (t : Str) (mqs : List MessageQueue),
      mqs ≠ [] → alookup cs t = none →
      roundRobinSelect cs t mqs =
        .ok (some (mqs.getD (1 % mqs.length) mq0)) (ainsert t 1 cs))
    ∧ (∀ (cs : List (Str × Nat)) (t : Str),
      roundRobinSelect cs t [] = .panicked)
    ∧ (∀ info : TopicPublishInfo, info.message_queues ≠ [] →
      select_message_queue info =
        .ok (info.message_queues.getD
            (info.queue_index % info.message_queues.length) mq0)
          ((info.queue_index + 1) % USIZE))
    ∧ (∀ n : Nat, select_message_queue ⟨[], n⟩ = .panicked) := by
  refine ⟨?_, ?_, ?_, ?_, ?_⟩
  · intro cs t mqs e hne hl
    have hpos : 0 < mqs.length := List.length_pos.mpr hne
    unfold roundRobinSelect
    rw [hl, isEmpty_false_of_ne_nil hne]
    simp only [Bool.false_eq_true, if_false]
    rw [get?_eq_some_getD (Nat.mod_lt _ hpos)]
  · intro cs t mqs hne hl
    have hpos : 0 < mqs.length := List.length_pos.mpr hne
    unfold roundRobinSelect
    rw [hl, isEmpty_false_of_ne_nil hne]
    simp only [Bool.false_eq_true, if_false]
    rw [get?_eq_some_getD (Nat.mod_lt _ hpos)]
  · intro cs t
    rfl
  · intro info hne
    unfold select_message_queue
    rw [isEmpty_false_of_ne_nil hne]
    simp only [Bool.false_eq_true, if_false]
  · intro n
    rfl

/-- Witness for C10: first round-robin call for a fresh topic on two
queues picks index `1 % 2 = 1`, and `select_message_queue` with counter 5
on two queues picks index `5 % 2 = 1`. -/
theorem c10_selector_witness :
    roundRobinSelect [] [116] [⟨[], [], 0⟩, ⟨[], [], 1⟩] =
      .ok (some (⟨[], [], 1⟩ : MessageQueue)) [([116], 1)] ∧
    select_message_queue ⟨[⟨[], [], 0⟩, ⟨[], [], 1⟩], 5⟩ =
      .ok (⟨[], [], 1⟩ : MessageQueue) 6 := by
  constructor
  · have h := c10_selector_zero_guard.2.1 [] [116]
      [⟨[], [], 0⟩, ⟨[], [], 1⟩] (by decide) (by decide)
    rw [h]
    decide
  · have h := c10_selector_zero_guard.2.2.2.1
      ⟨[⟨[], [], 0⟩, ⟨[], [], 1⟩], 5⟩ (by decide)
    rw [h]
    decide

/-! ## Route data and change detection (`src/route.rs`, `src/namesrv.rs`) -/

/-- `route.rs`: `QueueData` (i32 fields as `Int`). -/
structure QueueData where
  broker_name : Str
  read_queue_nums : Int
  write_queue_nums : Int
  perm : Int
  topic_sync_flag : Int
deriving DecidableEq

/-- `route.rs`: `BrokerData`; the `HashMap<i64, String>` of role-id to
address is an association list. -/
structure BrokerData where
  cluster : Str
  broker_name : Str
  broker_addrs : List (Int × Str)
deriving DecidableEq

/-- `route.rs`: `TopicRouteData`. -/
structure TopicRouteData where
  order_topic_conf : Str
  queue_datas : List QueueData
  broker_datas : List BrokerData
  filter_server_table : List (Str × List Str)
deriving DecidableEq

/-- Rust `Ord` on `str`: lexicographic byte-wise comparison, a proper
prefix comparing less. `ltStr a b` is `a < b`. -/
def ltStr : Str → Str → Bool
  | [], [] => false
  | [], _ :: _ => true
  | _ :: _, [] => false
  | a :: as, b :: bs =>
    if a < b then true else if b < a then false else ltStr as bs

/-- One step of a stable insertion sort by key: the new element is
placed after every element whose key is less than or EQUAL to its own,
so elements with equal keys keep their original relative order — the
stability contract of Rust's `slice::sort_by_key`.  Stable sorts are
extensionally unique, so this models `sort_by_key` exactly. -/
def insertSorted {α : Type} (κ : α → Str) (x : α) : List α → List α
  | [] => [x]
  | y :: t => if ltStr (κ x) (κ y) then x :: y :: t else y :: insertSorted κ x t

/-- Stable sort by key (model of Rust `sort_by_key`). -/
def sortByKey {α : Type} (κ : α → Str) (l : List α) : List α :=
  l.foldl (fun acc x => insertSorted κ x acc) []

/-- `NameServer::is_topic_route_data_changed`: clone both snapshots, sort
their `queue_datas` and `broker_datas` by `broker_name`, and report
"changed" iff the sorted values are unequal. -/
def is_topic_route_data_changed (old_data new_data : TopicRouteData) : Bool :=
  let o := { old_data with
    queue_datas := sortByKey (fun q => q.broker_name) old_data.queue_datas,
    broker_datas := sortByKey (fun b => b.broker_name) old_data.broker_datas }
  let n := { new_data with
    queue_datas := sortByKey (fun q => q.broker_name) new_data.queue_datas,
    broker_datas := sortByKey (fun b => b.broker_name) new_data.broker_datas }
  if o = n then false else true

/-! ### Order theory for `ltStr` and the stable sort -/

theorem ltStr_asymm : ∀ a b : Str, ltStr a b = true → ltStr b a = false := by
  intro a
  induction a with
  | nil =>
    intro b h
    cases b with
    | nil => simp [ltStr] at h
    | cons x t => rfl
  | cons x t ih =>
    intro b h
    cases b with
    | nil => simp [ltStr] at h
    | cons y s =>
      unfold ltStr at h ⊢
      by_cases hxy : x < y
      · rw [if_neg (by omega : ¬ y < x), if_pos hxy]
      · by_cases hyx : y < x
        · rw [if_neg hxy, if_pos hyx] at h
          exact absurd h (by simp)
        · rw [if_neg hxy, if_neg hyx] at h
          rw [if_neg hyx, if_neg hxy]
          exact ih s h

theorem ltStr_antisymm : ∀ a b : Str,
    ltStr a b = false → ltStr b a = false → a = b := by
  intro a
  induction a with
  | nil =>
    intro b h _
    cases b with
    | nil => rfl
    | cons y s => simp [ltStr] at h
  | cons x t ih =>
    intro b h h'
    cases b with
    | nil => simp [ltStr] at h'
    | cons y s =>
      unfold ltStr at h h'
      have hxy : ¬ x < y := by
        by_contra hcon
        rw [if_pos hcon] at h
        exact absurd h (by simp)
      have hyx : ¬ y < x := by
        by_contra hcon
        rw [if_pos hcon] at h'
        exact absurd h' (by simp)
      rw [if_neg hxy, if_neg hyx] at h
      rw [if_neg hyx, if_neg hxy] at h'
      have hxyeq : x = y := by omega
      rw [hxyeq, ih s h h']

/-- Transitivity in the `≤` form: `ltStr b a = false` means `a ≤ b`. -/
theorem ltStr_le_trans : ∀ a b c : Str,
    ltStr b a = false → ltStr c b = false → ltStr c a = false := by
  intro a
  induction a with
  | nil =>
    intro b c _ _
    cases c with
    | nil => rfl
    | cons z u => rfl
  | cons x t ih =>
    intro b c hab hbc
    cases b with
    | nil => simp [ltStr] at hab
    | cons y s =>
      cases c with
      | nil => simp [ltStr] at hbc
      | cons z u =>
        unfold ltStr at hab hbc ⊢
        have hyx : ¬ y < x := by
          by_contra hcon
          rw [if_pos hcon] at hab
          exact absurd hab (by simp)
        have hzy : ¬ z < y := by
          by_contra hcon
          rw [if_pos hcon] at hbc
          exact absurd hbc (by simp)
        rw [if_neg hyx] at hab
        rw [if_neg hzy] at hbc
        rw [if_neg (by omega : ¬ z < x)]
        by_cases hxz : x < z
        · rw [if_pos hxz]
        · rw [if_neg hxz]
          rw [if_neg (by omega : ¬ x < y)] at hab
          rw [if_neg (by omega : ¬ y < z)] at hbc
          exact ih s u hab hbc

/-- The sortedness relation used below: `keyLE κ x y` says the key of `x`
is at most the key of `y` (`¬ κ y < κ x`). -/
def keyLE {α : Type} (κ : α → Str) (x y : α) : Prop := ltStr (κ y) (κ x) = false

theorem not_true_eq_false {b : Bool} (h : ¬ b = true) : b = false := by
  cases b
  · rfl
  · exact absurd rfl h

theorem insertSorted_perm {α : Type} (κ : α → Str) (x : α) (l : List α) :
    (insertSorted κ x l).Perm (x :: l) := by
  induction l with
  | nil => exact List.Perm.refl _
  | cons y t ih =>
    unfold insertSorted
    by_cases h : ltStr (κ x) (κ y) = true
    · rw [if_pos h]
    · rw [if_neg h]
      exact (List.Perm.cons y ih).trans (List.Perm.swap x y t)

theorem insertSorted_sorted {α : Type} (κ : α → Str) (x : α) (l : List α)
    (h : l.Pairwise (keyLE κ)) :
    (insertSorted κ x l).Pairwise (keyLE κ) := by
  induction l with
  | nil => simp [insertSorted]
  | cons y t ih =>
    rcases List.pairwise_cons.mp h with ⟨hy, ht⟩
    unfold insertSorted
    by_cases hlt : ltStr (κ x) (κ y) = true
    · rw [if_pos hlt]
      refine List.pairwise_cons.mpr ⟨?_, h⟩
      intro z hz
      have hxy : ltStr (κ y) (κ x) = false := ltStr_asymm _ _ hlt
      rcases List.mem_cons.mp hz with rfl | hz'
      · exact hxy
      · exact ltStr_le_trans (κ x) (κ y) (κ z) hxy (hy z hz')
    · rw [if_neg hlt]
      refine List.pairwise_cons.mpr ⟨?_, ih ht⟩
      intro z hz
      have hz' : z ∈ x :: t := (insertSorted_perm κ x t).subset hz
      rcases List.mem_cons.mp hz' with rfl | hz''
      · exact not_true_eq_false hlt
      · exact hy z hz''

theorem foldl_insert_perm {α : Type} (κ : α → Str) :
    ∀ (l acc : List α),
      (List.foldl (fun a x => insertSorted κ x a) acc l).Perm (acc ++ l) := by
  intro l
  induction l with
  | nil =>
    intro acc
    simp
  | cons x t ih =>
    intro acc
    exact ((ih _).trans
      ((insertSorted_perm κ x acc).append_right t)).trans List.perm_middle.symm

theorem sortByKey_perm {α : Type} (κ : α → Str) (l : List α) :
    (sortByKey κ l).Perm l := by
  have h := foldl_insert_perm κ l []
  simpa [sortByKey] using h

theorem sortByKey_sorted {α : Type} (κ : α → Str) (l : List α) :
    (sortByKey κ l).Pairwise (keyLE κ) := by
  have hg : ∀ (m acc : List α), acc.Pairwise (keyLE κ) →
      (List.foldl (fun a x => insertSorted κ x a) acc m).Pairwise (keyLE κ) := by
    intro m
    induction m with
    | nil => intro acc hacc; exact hacc
    | cons x t ih =>
      intro acc hacc
      exact ih _ (insertSorted_sorted κ x acc hacc)
  exact hg l [] (List.Pairwise.nil)

/-- Two key-sorted lists that are permutations of each other, where
equal keys force equal elements, are equal. -/
theorem sorted_perm_eq {α : Type} (κ : α → Str) : ∀ (l₁ l₂ : List α),
    l₁.Perm l₂ → l₁.Pairwise (keyLE κ) → l₂.Pairwise (keyLE κ) →
    (∀ x ∈ l₁, ∀ y ∈ l₁, κ x = κ y → x = y) → l₁ = l₂ := by
  intro l₁
  induction l₁ with
  | nil =>
    intro l₂ hp _ _ _
    exact (List.Perm.eq_nil hp.symm).symm
  | cons a t₁ ih =>
    intro l₂ hp hs₁ hs₂ htie
    cases l₂ with
    | nil => exact absurd (List.Perm.eq_nil hp) (by simp)
    | cons b t₂ =>
      have hab : a = b := by
        by_cases heq : a = b
        · exact heq
        · have hbmem : b ∈ a :: t₁ := hp.symm.subset (List.mem_cons_self b t₂)
          have hamem : a ∈ b :: t₂ := hp.subset (List.mem_cons_self a t₁)
          have hb_t₁ : b ∈ t₁ := by
            rcases List.mem_cons.mp hbmem with h | h
            · exact absurd h.symm heq
            · exact h
          have ha_t₂ : a ∈ t₂ := by
            rcases List.mem_cons.mp hamem with h | h
            · exact absurd h heq
            · exact h
          have h1 : ltStr (κ b) (κ a) = false :=
            (List.pairwise_cons.mp hs₁).1 b hb_t₁
          have h2 : ltStr (κ a) (κ b) = false :=
            (List.pairwise_cons.mp hs₂).1 a ha_t₂
          have hkey : κ a = κ b := ltStr_antisymm (κ a) (κ b) h2 h1
          exact htie a (List.mem_cons_self a t₁) b hbmem hkey
      subst hab
      have ht : t₁.Perm t₂ := hp.cons_inv
      have hrec : t₁ = t₂ := by
        refine ih t₂ ht (List.pairwise_cons.mp hs₁).2
          (List.pairwise_cons.mp hs₂).2 ?_
        intro x hx y hy hκ
        exact htie x (List.mem_cons_of_mem a hx) y (List.mem_cons_of_mem a hy) hκ
      rw [hrec]

theorem sortByKey_eq_of_perm {α : Type} (κ : α → Str) (l₁ l₂ : List α)
    (hp : l₁.Perm l₂)
    (htie : ∀ x ∈ l₁, ∀ y ∈ l₁, κ x = κ y → x = y) :
    sortByKey κ l₁ = sortByKey κ l₂ := by
  refine sorted_perm_eq κ _ _ ?_ (sortByKey_sorted κ l₁) (sortByKey_sorted κ l₂) ?_
  · exact ((sortByKey_perm κ l₁).trans hp).trans (sortByKey_perm κ l₂).symm
  · intro x hx y hy hκ
    exact htie x ((sortByKey_perm κ l₁).subset hx) y
      ((sortByKey_perm κ l₁).subset hy) hκ

theorem tie_of_nodup_map {α : Type} (κ : α → Str) (l : List α)
    (h : (l.map κ).Nodup) :
    ∀ x ∈ l, ∀ y ∈ l, κ x = κ y → x = y := by
  induction l with
  | nil => intro x hx; cases hx
  | cons a t ih =>
    rw [List.map_cons, List.nodup_cons] at h
    intro x hx y hy hκ
    rcases List.mem_cons.mp hx with rfl | hx' <;>
      rcases List.mem_cons.mp hy with rfl | hy'
    · rfl
    · exact absurd (hκ ▸ List.mem_map_of_mem κ hy') h.1
    · exact absurd (hκ ▸ List.mem_map_of_mem κ hx') (by simpa using h.1)
    · exact ih h.2 x hx' y hy' hκ

/-! ### Claim C5: order-independence of route change detection -/

/-- C5 (amended): permuting the `queue_datas` and/or `broker_datas` lists
of a `TopicRouteData` is reported as "unchanged" PROVIDED the broker
names within each list are pairwise distinct (the realistic route
invariant); with duplicate broker names the stable sort preserves the
relative order of the duplicates, so a permutation of entries sharing a
broker name can be reported as changed. -/
theorem c5_route_change_order_independent (r₁ r₂ : TopicRouteData)
    (hconf : r₂.order_topic_conf = r₁.order_topic_conf)
    (hfst : r₂.filter_server_table = r₁.filter_server_table)
    (hq : r₁.queue_datas.Perm r₂.queue_datas)
    (hb : r₁.broker_datas.Perm r₂.broker_datas)
    (hqnd : (r₁.queue_datas.map (fun q => q.broker_name)).Nodup)
    (hbnd : (r₁.broker_datas.map (fun b => b.broker_name)).Nodup) :
    is_topic_route_data_changed r₁ r₂ = false := by
  unfold is_topic_route_data_changed
  have heq1 : sortByKey (fun q => q.broker_name) r₁.queue_datas =
      sortByKey (fun q => q.broker_name) r₂.queue_datas :=
    sortByKey_eq_of_perm _ _ _ hq (tie_of_nodup_map _ _ hqnd)
  have heq2 : sortByKey (fun b => b.broker_name) r₁.broker_datas =
      sortByKey (fun b => b.broker_name) r₂.broker_datas :=
    sortByKey_eq_of_perm _ _ _ hb (tie_of_nodup_map _ _ hbnd)
  rw [if_pos]
  cases r₁
  cases r₂
  simp only at hconf hfst heq1 heq2
  simp [hconf, hfst, heq1, heq2]

/-- Witness for C5: two concrete routes differing only in the order of
two queue entries (distinct broker names) and of two broker entries are
reported unchanged. -/
theorem c5_route_change_witness :
    is_topic_route_data_changed
      ⟨[], [⟨[97], 1, 1, 6, 0⟩, ⟨[98], 2, 2, 6, 0⟩],
        [⟨[99], [97], []⟩, ⟨[99], [98], []⟩], []⟩
      ⟨[], [⟨[98], 2, 2, 6, 0⟩, ⟨[97], 1, 1, 6, 0⟩],
        [⟨[99], [98], []⟩, ⟨[99], [97], []⟩], []⟩ = false :=
  c5_route_change_order_independent _ _ rfl rfl (by decide) (by decide)
    (by decide) (by decide)

/-- Counterexample to C5 as stated: with two queue entries sharing the
broker name "a" but differing in their queue counts, swapping them is a
permutation of the queue list, yet change detection reports "changed"
(the stable sort keeps the duplicate-key entries in their given order). -/
theorem c5_counterexample :
    is_topic_route_data_changed
      ⟨[], [⟨[97], 1, 1, 6, 0⟩, ⟨[97], 2, 2, 6, 0⟩], [], []⟩
      ⟨[], [⟨[97], 2, 2, 6, 0⟩, ⟨[97], 1, 1, 6, 0⟩], [], []⟩ = true ∧
    List.Perm [⟨[97], 2, 2, 6, 0⟩, ⟨[97], 1, 1, 6, 0⟩]
      [(⟨[97], 1, 1, 6, 0⟩ : QueueData), ⟨[97], 2, 2, 6, 0⟩] := by
  constructor
  · decide
  · decide

/-! ## Protocol data model (`src/protocol/header.rs`, `src/protocol/mod.rs`) -/

/-- `header.rs`: `LanguageCode`, `#[repr(u8)]` with ordinals 0..11. -/
inductive LanguageCode where
  | JAVA | CPP | DOTNET | PYTHON | DELPHI | ERLANG
  | RUBY | OTHER | HTTP | GO | PHP | OMS
deriving DecidableEq

/-- The `u8` ordinal of a `LanguageCode` (`IntoPrimitive`). -/
def LanguageCode.toByte : LanguageCode → Nat
  | .JAVA => 0
  | .CPP => 1
  | .DOTNET => 2
  | .PYTHON => 3
  | .DELPHI => 4
  | .ERLANG => 5
  | .RUBY => 6
  | .OTHER => 7
  | .HTTP => 8
  | .GO => 9
  | .PHP => 10
  | .OMS => 11

/-- `LanguageCode::try_from(u8)` (`TryFromPrimitive`): only 0..11 decode. -/
def LanguageCode.ofByte? : Nat → Option LanguageCode
  | 0 => some .JAVA
  | 1 => some .CPP
  | 2 => some .DOTNET
  | 3 => some .PYTHON
  | 4 => some .DELPHI
  | 5 => some .ERLANG
  | 6 => some .RUBY
  | 7 => some .OTHER
  | 8 => some .HTTP
  | 9 => some .GO
  | 10 => some .PHP
  | 11 => some .OMS
  | _ => none

/-- `header.rs`: `Header`.  `code`/`version` are `i16`, `opaqueId`/`flag`
are `i32` (the source names the correlation-id field `opaque`); they are
carried as `Int` with their ranges imposed where theorems need them.
`ext_fields` is the `HashMap<String, String>` as an association list in
iteration order. -/
structure Header where
  code : Int
  language : LanguageCode
  version : Int
  opaqueId : Int
  flag : Int
  remark : Str
  ext_fields : List (Str × Str)
deriving DecidableEq

/-- `protocol/mod.rs`: `RemotingCommand` (header + opaque body bytes). -/
structure RemotingCommand where
  header : Header
  body : List Nat
deriving DecidableEq

/-- `src/error.rs`: the `Error` enum (payloads that no claim inspects,
such as the wrapped `io::Error` / `serde_json::Error` values, are
dropped). -/
inductive MqError where
  | connection
  | io
  | json
  | invalidUtf8
  | invalidHeaderCodec
  | invalidHeader (msg : Str)
  | emptyNameServers
  | emptyRouteData
  | topicNotExist (topic : Str)
  | responseError (code : Int) (message : Str)
deriving DecidableEq

/-! ## Name-server route resolver (`src/namesrv.rs`) — claim C8 -/

/-- The `servers` / `index` half of `NameServerInner` (the two caches are
not involved in claim C8). -/
structure NameServerInner where
  servers : List Str
  index : Nat
deriving DecidableEq

/-- Byte string of `"http(s)://"`. -/
def httpsPrefix : Str := [104, 116, 116, 112, 40, 115, 41, 58, 47, 47]

/-- `str::trim_start_matches("http(s)://")`: repeatedly strip the prefix
while present.  Each strip removes 10 bytes, so `s.length` bounds the
number of iterations and the fuel never runs out. -/
def stripHttpFuel : Nat → Str → Str
  | 0, s => s
  | f + 1, s => if s.take 10 == httpsPrefix then stripHttpFuel f (s.drop 10) else s

def trimHttp (s : Str) : Str := stripHttpFuel s.length s

/-- `NameServer::get_address`: return `servers[index]` (trimmed) and
advance the cursor by one modulo the list length.  `none` marks the
panic on an out-of-range cursor (in particular on an empty list). -/
def get_address (st : NameServerInner) : Option (Str × NameServerInner) :=
  match st.servers.get? st.index with
  | none => none
  | some addr =>
    some (trimHttp addr, { st with index := (st.index + 1) % st.servers.length })

/-- Valid `ResponseCode` discriminants (`response.rs`): any other code
makes `ResponseCode::try_from(..).unwrap()` panic. -/
def validResponseCode (c : Int) : Bool :=
  [0, 1, 2, 3, 10, 11, 12, 13, 14, 15, 16, 17, 18, 19, 20, 21, 22, 23, 24,
    25, 26, 200, 201, 202, 203, 206, 207].contains c

/-- The request command built by `query_topic_route_info`:
`RemotingCommand::with_header(RequestCode::GetRouteInfoByTopic = 105,
GetRouteInfoRequestHeader { topic }, vec![])`, i.e. `new(0, 105, 0, "",
{"topic": topic}, [])` (language OTHER, version 431). -/
def mkRouteRequest (topic : Str) : RemotingCommand :=
  ⟨⟨105, .OTHER, 431, 0, 0, [], [([116, 111, 112, 105, 99], topic)]⟩, []⟩

/-- Outcome of a route query; `panicked` marks the
`ResponseCode::try_from(..).unwrap()` panic on an unknown code. -/
inductive QueryOutcome where
  | panicked
  | ok (route : TopicRouteData)
  | err (e : MqError)
deriving DecidableEq

/-- The `for addr in &inner.servers` loop of `query_topic_route_info`:
connection-level failures move on to the next server; a response is
classified as Success (parse the body — `TopicRouteData::from_bytes`,
whose serde/dirty-json text repair is external, enters as the
`parseRoute` oracle), TopicNotExist, or any other known code
(ResponseError); exhaustion yields EmptyRouteData. -/
def queryLoop (invoke : Str → RemotingCommand → Except MqError RemotingCommand)
    (parseRoute : List Nat → Except MqError TopicRouteData) (topic : Str) :
    List Str → QueryOutcome
  | [] => .err .emptyRouteData
  | addr :: rest =>
    match invoke addr (mkRouteRequest topic) with
    | .error _ => queryLoop invoke parseRoute topic rest
    | .ok res =>
      if validResponseCode res.header.code then
        if res.header.code == 0 then
          match parseRoute res.body with
          | .ok route => .ok route
          | .error e => .err e
        else if res.header.code == 17 then .err (.topicNotExist topic)
        else .err (.responseError res.header.code res.header.remark)
      else .panicked

/-- `NameServer::query_topic_route_info`: empty server list errors
immediately; otherwise the loop scans `inner.servers` from the head.
The state is returned alongside to make explicit that the function
never reads or writes the round-robin cursor. -/
def query_topic_route_info
    (invoke : Str → RemotingCommand → Except MqError RemotingCommand)
    (parseRoute : List Nat → Except MqError TopicRouteData) (topic : Str)
    (st : NameServerInner) : QueryOutcome × NameServerInner :=
  if st.servers.isEmpty then (.err .emptyNameServers, st)
  else (queryLoop invoke parseRoute topic st.servers, st)

/-- Modelled from the claim's words (for comparison only): a query that
starts iterating at the round-robin cursor and advances the cursor by
one, wrapping. -/
def query_topic_route_info_claim
    (invoke : Str → RemotingCommand → Except MqError RemotingCommand)
    (parseRoute : List Nat → Except MqError TopicRouteData) (topic : Str)
    (st : NameServerInner) : QueryOutcome × NameServerInner :=
  if st.servers.isEmpty then (.err .emptyNameServers, st)
  else (queryLoop invoke parseRoute topic (st.servers.rotateLeft st.index),
    { st with index := (st.index + 1) % st.servers.length })

/-! ### Claim C8 -/

/-- C8 (amended): `query_topic_route_info` iterates the server list from
its head on every call — its result does not depend on the cursor, and
it leaves the resolver state (in particular the cursor) untouched.  The
cursor is read and advanced (by one, wrapping) only by `get_address`,
which `query_topic_route_info` does not call. -/
theorem c8_query_ignores_cursor :
    (∀ (invoke : Str → RemotingCommand → Except MqError RemotingCommand)
      (parseRoute : List Nat → Except MqError TopicRouteData) (topic : Str)
      (st₁ st₂ : NameServerInner), st₁.servers = st₂.servers →
      (query_topic_route_info invoke parseRoute topic st₁).1 =
        (query_topic_route_info invoke parseRoute topic st₂).1)
    ∧ (∀ invoke parseRoute (topic : Str) (st : NameServerInner),
      (query_topic_route_info invoke parseRoute topic st).2 = st)
    ∧ (∀ (st st' : NameServerInner) (addr : Str),
      get_address st = some (addr, st') →
      st.index < st.servers.length ∧
      addr = trimHttp (st.servers.getD st.index []) ∧
      st'.servers = st.servers ∧
      st'.index = (st.index + 1) % st.servers.length) := by
  refine ⟨?_, ?_, ?_⟩
  · intro invoke parseRoute topic st₁ st₂ h
    unfold query_topic_route_info
    rw [h]
    by_cases he : st₂.servers.isEmpty
    · rw [if_pos he, if_pos he]
    · rw [if_neg he, if_neg he]
  · intro invoke parseRoute topic st
    unfold query_topic_route_info
    by_cases he : st.servers.isEmpty
    · rw [if_pos he]
    · rw [if_neg he]
  · intro st st' addr h
    unfold get_address at h
    cases heq : st.servers.get? st.index with
    | none => rw [heq] at h; cases h
    | some a =>
      rw [heq] at h
      have hlt : st.index < st.servers.length := by
        by_contra hge
        rw [List.get?_eq_none.mpr (Nat.le_of_not_lt hge)] at heq
        cases heq
      refine ⟨hlt, ?_, ?_, ?_⟩
      · cases h
        rw [List.getD_eq_getElem _ _ hlt]
        rw [List.get?_eq_getElem?, List.getElem?_eq_getElem hlt] at heq
        cases heq
        rfl
      · cases h
        rfl
      · cases h
        rfl

/-- Witness for C8: concretely, moving the cursor from 0 to 1 does not
change the query's result, the state is untouched, and `get_address`
advances the cursor. -/
theorem c8_query_ignores_cursor_witness :
    (query_topic_route_info (fun _ _ => .error .connection)
        (fun _ => .error .json) [116] ⟨[[97], [98]], 0⟩).1 =
      (query_topic_route_info (fun _ _ => .error .connection)
        (fun _ => .error .json) [116] ⟨[[97], [98]], 1⟩).1 ∧
    (query_topic_route_info (fun _ _ => .error .connection)
        (fun _ => .error .json) [116] ⟨[[97], [98]], 1⟩).2 =
      ⟨[[97], [98]], 1⟩ ∧
    get_address ⟨[[97], [98]], 1⟩ = some ([98], ⟨[[97], [98]], 0⟩) := by
  refine ⟨?_, ?_, ?_⟩
  · exact c8_query_ignores_cursor.1 _ _ [116] ⟨[[97], [98]], 0⟩
      ⟨[[97], [98]], 1⟩ rfl
  · exact c8_query_ignores_cursor.2.1 _ _ [116] ⟨[[97], [98]], 1⟩
  · decide

/-- Counterexample to C8 as stated: with servers `[a, b]`, cursor 1, and
each server answering with a distinct (non-success) response code, the
code's query answers with server `a`'s code and leaves the cursor at 1,
while a cursor-driven query would answer with server `b`'s code and
advance the cursor. -/
theorem c8_counterexample :
    query_topic_route_info
        (fun addr _ => if addr == [97]
          then .ok ⟨⟨1, .OTHER, 431, 0, 0, [114, 97], []⟩, []⟩
          else .ok ⟨⟨2, .OTHER, 431, 0, 0, [114, 98], []⟩, []⟩)
        (fun _ => .error .json) [116] ⟨[[97], [98]], 1⟩ =
      (.err (.responseError 1 [114, 97]), ⟨[[97], [98]], 1⟩) ∧
    query_topic_route_info_claim
        (fun addr _ => if addr == [97]
          then .ok ⟨⟨1, .OTHER, 431, 0, 0, [114, 97], []⟩, []⟩
          else .ok ⟨⟨2, .OTHER, 431, 0, 0, [114, 98], []⟩, []⟩)
        (fun _ => .error .json) [116] ⟨[[97], [98]], 1⟩ =
      (.err (.responseError 2 [114, 98]), ⟨[[97], [98]], 0⟩) ∧
    MqError.responseError 1 [114, 97] ≠ MqError.responseError 2 [114, 98] := by
  refine ⟨by decide, by decide, by decide⟩

/-! ## Connection establishment (`src/remoting/client.rs`) — claim C4

The `connections: Mutex<HashMap<String, ConnectionStatus>>` map and the
code paths of `get_connection` / `connect` that manipulate it are a
sequential state machine; the suspension points only decide which other
events (waiter arrivals) are interleaved, and those enter the model as
explicit parameters.  Connections and waiters are identified by `Nat`
tokens. -/

/-- `ConnectionStatus`: an established connection, or an in-progress
attempt holding the oneshot senders of the waiting callers. -/
inductive ConnStatus where
  | connected (conn : Nat)
  | connecting (waiters : List Nat)
deriving DecidableEq

/-- What `get_connection` does under the lock for a caller `w`:
return the live handle, enqueue `w` as a waiter on the in-progress
attempt, or fall through to `connect` for an absent entry. -/
inductive GetConnAction where
  | useConn (conn : Nat)
  | waitOn (m : List (Str × ConnStatus))
  | startConnect
deriving DecidableEq

def get_connection (m : List (Str × ConnStatus)) (addr : Str) (w : Nat) :
    GetConnAction :=
  match alookup m addr with
  | some (.connected c) => .useConn c
  | some (.connecting v) => .waitOn (ainsert addr (.connecting (v ++ [w])) m)
  | none => .startConnect

/-- Result of one full run of `RemotingClient::connect` for caller `w`:
`failed` (the `Connection::new(addr).await?` error propagates to this
caller; the map is left as shown and nobody is notified), `queued` (an
attempt was already running, `w` joined its waiter list), or
`connectedOk` (the connection was established; the listed waiters were
completed with `Ok`). -/
inductive ConnectResult where
  | failed (m : List (Str × ConnStatus))
  | queued (m : List (Str × ConnStatus))
  | connectedOk (conn : Nat) (m : List (Str × ConnStatus)) (notified : List Nat)
deriving DecidableEq

/-- `RemotingClient::connect`.  `attempt` is the outcome of
`Connection::new(addr)` (`none` = failure); `arrivals` are the waiters
that `get_connection` queues on the entry while that attempt is in
flight.  Phase 1 (`entry(..).or_insert_with(Connecting(vec![]))`):
an entry with a non-empty waiter list makes this caller a waiter too;
otherwise the caller runs the attempt.  On success the entry is replaced
by `Connected` and the waiters of the replaced `Connecting` entry are
completed with `Ok`; on failure the `?` operator returns immediately —
no map update, no notification. -/
def connect (m : List (Str × ConnStatus)) (addr : Str) (w : Nat)
    (attempt : Option Nat) (arrivals : List Nat) : ConnectResult :=
  let m₁ : List (Str × ConnStatus) := match alookup m addr with
    | none => ainsert addr (ConnStatus.connecting []) m
    | some _ => m
  match alookup m₁ addr with
  | some (.connecting v) =>
    if v.isEmpty then
      let m₂ := ainsert addr (ConnStatus.connecting arrivals) m₁
      match attempt with
      | none => .failed m₂
      | some c => .connectedOk c (ainsert addr (ConnStatus.connected c) m₂) arrivals
    else .queued (ainsert addr (ConnStatus.connecting (v ++ [w])) m₁)
  | _ =>
    match attempt with
    | none => .failed m₁
    | some c =>
      .connectedOk c (ainsert addr (ConnStatus.connected c) m₁)
        (match alookup m₁ addr with
          | some (ConnStatus.connecting v) => v
          | some (ConnStatus.connected _) => []
          | none => [])

/-! ### Claim C4 -/

/-- C4, evaluated at the failing input: address `"a"` (byte 97) is
absent; caller 0 starts the connect attempt; caller 7 queues as a waiter
while it runs; `Connection::new` fails.  The code returns the failure to
caller 0 alone: the map still holds `Connecting([7])` for the address
(the entry does NOT revert to absent), waiter 7 is never completed, and
a subsequent `get_connection` by caller 8 queues as yet another waiter
instead of starting a fresh attempt.  The success branch (same
interleaving, attempt succeeds as connection 3) shows the intended
broadcast that the failure branch lacks. -/
theorem c4_connect_failure_behaviour :
    connect [] [97] 0 none [7] =
      .failed [([97], .connecting [7])] ∧
    alookup [([97], ConnStatus.connecting [7])] [97] =
      some (.connecting [7]) ∧
    get_connection [([97], ConnStatus.connecting [7])] [97] 8 =
      .waitOn [([97], .connecting [7, 8])] ∧
    connect [] [97] 0 (some 3) [7] =
      .connectedOk 3 [([97], .connected 3)] [7] := by
  refine ⟨by decide, by decide, by decide, by decide⟩

/-! ## Byte-level utilities for the wire codec -/

/-- `byteorder` big-endian `u16`/`i16` write: the two low-order bytes of
`n`, most significant first (an `as i16` cast truncates, which the `%`
here reproduces). -/
def be16 (n : Nat) : List Nat := [n / 2 ^ 8 % 256, n % 256]

/-- Big-endian `u32`/`i32` write of the four low-order bytes. -/
def be32 (n : Nat) : List Nat :=
  [n / 2 ^ 24 % 256, n / 2 ^ 16 % 256, n / 2 ^ 8 % 256, n % 256]

/-- Big-endian value of a byte list. -/
def beVal (bytes : List Nat) : Nat :=
  bytes.foldl (fun acc b => acc * 256 + b) 0

/-- Reinterpret an unsigned 16-bit value as `i16`. -/
def i16ofU16 (n : Nat) : Int :=
  if n < 2 ^ 15 then (n : Int) else (n : Int) - 2 ^ 16

/-- Reinterpret an unsigned 32-bit value as `i32`. -/
def i32ofU32 (n : Nat) : Int :=
  if n < 2 ^ 31 then (n : Int) else (n : Int) - 2 ^ 32

/-- The 16-bit two's-complement pattern of an `i16` (Rust `as i16` /
`as u16`). -/
def u16ofInt (i : Int) : Nat := (i % 2 ^ 16).toNat

/-- The 32-bit two's-complement pattern of an `i32`. -/
def u32ofInt (i : Int) : Nat := (i % 2 ^ 32).toNat

/-- Rust `i32 as usize` on a 64-bit target: sign-extend the 32-bit
pattern to 64 bits. -/
def usizeOfU32 (n : Nat) : Nat :=
  if n < 2 ^ 31 then n else 2 ^ 64 - 2 ^ 32 + n

/-- Rust `i16 as usize` on a 64-bit target: sign-extend the 16-bit
pattern to 64 bits. -/
def usizeOfU16 (n : Nat) : Nat :=
  if n < 2 ^ 15 then n else 2 ^ 64 - 2 ^ 16 + n

/-- The UTF-8 validity check performed by `String::from_utf8` (RFC 3629
table). -/
def isValidUtf8 : List Nat → Bool
  | [] => true
  | b :: rest =>
    if b < 0x80 then isValidUtf8 rest
    else if 0xC2 ≤ b ∧ b ≤ 0xDF then
      match rest with
      | c :: r2 => if 0x80 ≤ c ∧ c ≤ 0xBF then isValidUtf8 r2 else false
      | [] => false
    else if 0xE0 ≤ b ∧ b ≤ 0xEF then
      match rest with
      | c :: d :: r2 =>
        let lo := if b = 0xE0 then 0xA0 else 0x80
        let hi := if b = 0xED then 0x9F else 0xBF
        if (lo ≤ c ∧ c ≤ hi) ∧ (0x80 ≤ d ∧ d ≤ 0xBF) then isValidUtf8 r2
        else false
      | _ => false
    else if 0xF0 ≤ b ∧ b ≤ 0xF4 then
      match rest with
      | c :: d :: e :: r2 =>
        let lo := if b = 0xF0 then 0x90 else 0x80
        let hi := if b = 0xF4 then 0x8F else 0xBF
        if (lo ≤ c ∧ c ≤ hi) ∧ (0x80 ≤ d ∧ d ≤ 0xBF) ∧ (0x80 ≤ e ∧ e ≤ 0xBF)
        then isValidUtf8 r2
        else false
      | _ => false
    else false

/-- Cursor read of exactly `n` bytes (`Read::read_exact` /
`ReadBytesExt`): an `io::Error` (`Error::Io`) when the buffer is too
short.  This is only the `read_exact` step; where the source
pre-allocates with `vec![0; n]` for an attacker-controlled `n` (the
compact header codec), the allocation's capacity-overflow panic is
modelled by an explicit `ISIZE_MAX` guard at the call site.  The frame
decoder's own reads use `n = 4` or `n < 2 ^ 24`, which cannot
overflow. -/
def readBytes (n : Nat) (s : List Nat) : Except MqError (List Nat × List Nat) :=
  if s.length < n then .error .io else .ok (s.take n, s.drop n)

/-- `read_u8`. -/
def readU8E (s : List Nat) : Except MqError (Nat × List Nat) :=
  match s with
  | [] => .error .io
  | b :: r => .ok (b, r)

/-- `read_i16::<BigEndian>` as its unsigned 16-bit pattern. -/
def readU16E (s : List Nat) : Except MqError (Nat × List Nat) :=
  match readBytes 2 s with
  | .error e => .error e
  | .ok (bs, r) => .ok (beVal bs, r)

/-- `read_i32::<BigEndian>` as its unsigned 32-bit pattern. -/
def readU32E (s : List Nat) : Except MqError (Nat × List Nat) :=
  match readBytes 4 s with
  | .error e => .error e
  | .ok (bs, r) => .ok (beVal bs, r)

/-- Read `n` raw bytes and convert them with `String::from_utf8`
(`Error::InvalidUtf8` on invalid data). -/
def readString (n : Nat) (s : List Nat) : Except MqError (Str × List Nat) :=
  match readBytes n s with
  | .error e => .error e
  | .ok (bs, r) => if isValidUtf8 bs then .ok (bs, r) else .error .invalidUtf8

/-! ## The compact (RocketMQ) header codec (`header.rs`) -/

/-- `isize::MAX` on a 64-bit target: `vec![0; n]` panics with "capacity
overflow" (deterministically, in every build mode) when `n` exceeds it —
which is exactly when a sign-extended negative length prefix reaches the
allocation. -/
def ISIZE_MAX : Nat := 2 ^ 63 - 1

/-- Outcome of a decode step of the compact codec: a value, an `Error`,
or the capacity-overflow panic of a `vec![0; n]` pre-allocation with an
oversized `n`. -/
inductive RdOutcome (α : Type) where
  | ok : α → RdOutcome α
  | err : MqError → RdOutcome α
  | panicked
deriving DecidableEq

/-- `RocketMQHeaderCodec::encode_map`: for each entry, `key_len:i16`,
key bytes, `val_len:i32`, value bytes, in the map's iteration order
(the early return for the empty map produces the same empty buffer). -/
def encode_map (l : List (Str × Str)) : List Nat :=
  l.flatMap (fun kv =>
    be16 kv.1.length ++ kv.1 ++ be32 kv.2.length ++ kv.2)

/-- `RocketMQHeaderCodec::encode`.  Note: the language byte written is
the fixed `LanguageCode::OTHER` ordinal, NOT `header.language`. -/
def rmqHeaderEncode (h : Header) : List Nat :=
  let ext_bytes := encode_map h.ext_fields
  be16 (u16ofInt h.code) ++ [LanguageCode.OTHER.toByte] ++
    be16 (u16ofInt h.version) ++ be32 (u32ofInt h.opaqueId) ++
    be32 (u32ofInt h.flag) ++ be32 h.remark.length ++ h.remark ++
    be32 ext_bytes.length ++ ext_bytes

/-- The `while bytes_read < ext_len` loop of `RocketMQHeaderCodec::decode`.
Every iteration consumes at least `6` of the `ext_len` budget, so with
`fuel = ext_len + 1` the fuel never runs out on any input; the fuel-zero
arm is unreachable (marked by an `io` error).  Each `vec![0; len]`
pre-allocation (header.rs:190 for the key, :195 for the value) panics
with capacity overflow when the sign-extended `i16`/`i32` length exceeds
`isize::MAX`, before `read_exact` can fail. -/
def readExtEntries : Nat → Nat → Nat → List (Str × Str) → List Nat →
    RdOutcome (List (Str × Str) × List Nat)
  | fuel, bytesRead, extLen, acc, s =>
    if bytesRead < extLen then
      match fuel with
      | 0 => .err .io
      | fuel' + 1 =>
        match readU16E s with
        | .error e => .err e
        | .ok (klRaw, s1) =>
          let kl := usizeOfU16 klRaw
          if ISIZE_MAX < kl then .panicked
          else
            match readBytes kl s1 with
            | .error e => .err e
            | .ok (keyB, s2) =>
              match readU32E s2 with
              | .error e => .err e
              | .ok (vlRaw, s3) =>
                let vl := usizeOfU32 vlRaw
                if ISIZE_MAX < vl then .panicked
                else
                  match readBytes vl s3 with
                  | .error e => .err e
                  | .ok (valB, s4) =>
                    if isValidUtf8 keyB then
                      if isValidUtf8 valB then
                        readExtEntries fuel' (bytesRead + 2 + kl + 4 + vl)
                          extLen (ainsert keyB valB acc) s4
                      else .err .invalidUtf8
                    else .err .invalidUtf8
    else .ok (acc, s)

/-- `RocketMQHeaderCodec::decode`.  The formatted text of the
`InvalidHeader` message for an unknown language byte is not modelled
(empty string).  The remark pre-allocation `vec![0; remark_len]`
(header.rs:177) panics with capacity overflow when the sign-extended
`i32` length exceeds `isize::MAX`; a sign-extended `ext_len` has no
allocation of its own and only drives the loop bound. -/
def rmqHeaderDecode (buf : List Nat) : RdOutcome Header :=
  match readU16E buf with
  | .error e => .err e
  | .ok (codeU, s1) =>
    match readU8E s1 with
    | .error e => .err e
    | .ok (langB, s2) =>
      match LanguageCode.ofByte? langB with
      | none => .err (.invalidHeader [])
      | some language =>
        match readU16E s2 with
        | .error e => .err e
        | .ok (verU, s3) =>
          match readU32E s3 with
          | .error e => .err e
          | .ok (opqU, s4) =>
            match readU32E s4 with
            | .error e => .err e
            | .ok (flagU, s5) =>
              match readU32E s5 with
              | .error e => .err e
              | .ok (rlRaw, s6) =>
                let remarkLen := usizeOfU32 rlRaw
                match (if 0 < remarkLen then
                    (if ISIZE_MAX < remarkLen then .panicked
                     else match readString remarkLen s6 with
                       | .error e => .err e
                       | .ok p => .ok p)
                  else (.ok ([], s6) : RdOutcome (Str × List Nat))) with
                | .err e => .err e
                | .panicked => .panicked
                | .ok (remark, s7) =>
                  match readU32E s7 with
                  | .error e => .err e
                  | .ok (elRaw, s8) =>
                    let extLen := usizeOfU32 elRaw
                    match (if 0 < extLen then
                      readExtEntries (extLen + 1) 0 extLen [] s8
                      else .ok ([], s8)) with
                    | .err e => .err e
                    | .panicked => .panicked
                    | .ok (ext_fields, _) =>
                      .ok ⟨i16ofU16 codeU, language, i16ofU16 verU,
                        i32ofU32 opqU, i32ofU32 flagU, remark, ext_fields⟩

/-! ## The frame codec (`MqCodec`, `protocol/mod.rs`) -/

/-- `HEADER_FIXED_LENGTH` from `header.rs`. -/
def HEADER_FIXED_LENGTH : Nat := 4

/-- `HeaderCodecType` with its `u8` tags 0 (JSON) and 1 (RocketMQ). -/
inductive HeaderCodecType where
  | json
  | rocketMQ
deriving DecidableEq

def codecTypeByte : HeaderCodecType → Nat
  | .json => 0
  | .rocketMQ => 1

/-- `HeaderCodecType::try_from(u8)`. -/
def codecOfByte? : Nat → Option HeaderCodecType
  | 0 => some .json
  | 1 => some .rocketMQ
  | _ => none

/-- Outcome of one `MqCodec::decode` call on a buffer: `incomplete` is
the `Ok(None)` "need more bytes" outcome of the `tokio_util` `Decoder`
contract; `ok` carries the decoded command and the bytes remaining in
the buffer after `src.advance(..)`; `err` is `Err(..)`; `panicked` marks
the debug-mode overflow (release-mode capacity overflow) of
`length - HEADER_FIXED_LENGTH - header_len` when the declared lengths
are inconsistent. -/
inductive DecodeOutcome where
  | incomplete
  | ok (cmd : RemotingCommand) (rest : List Nat)
  | err (e : MqError)
  | panicked
deriving DecidableEq

/-! ## The JSON header codec (`JsonHeaderCodec`, via `serde_json`)

`serde_json::to_vec` on the derived `Serialize` of `Header` emits a
compact JSON object with the struct fields in declaration order, the
`LanguageCode` unit variant as its name string, numbers in decimal, and
strings escaped per `serde_json`'s rules (`\"`, `\\`, `\b`, `\t`, `\n`,
`\f`, `\r`, and `\u00xx` with lowercase hex for the other control
bytes; all other bytes raw).  The decoder below parses exactly this
canonical form — the only form the encoder ever produces, hence
sufficient for every theorem about `decode ∘ encode`; `serde_json`'s
tolerance for whitespace or reordered fields on foreign input is not
load-bearing and not modelled. -/

/-- Byte list of an ASCII literal. -/
def ascii (s : String) : List Nat := s.data.map Char.toNat

/-- Lowercase hex digit. -/
def hexDigit (d : Nat) : Nat := if d < 10 then 48 + d else 87 + d

/-- `serde_json` string escaping, byte-wise. -/
def escapeStr : List Nat → List Nat
  | [] => []
  | b :: r =>
    (if b = 34 then [92, 34]
     else if b = 92 then [92, 92]
     else if b = 8 then [92, 98]
     else if b = 9 then [92, 116]
     else if b = 10 then [92, 110]
     else if b = 12 then [92, 102]
     else if b = 13 then [92, 114]
     else if b < 32 then [92, 117, 48, 48, hexDigit (b / 16), hexDigit (b % 16)]
     else [b]) ++ escapeStr r

/-- A JSON string literal: quote, escaped bytes, quote. -/
def jsonStr (s : Str) : List Nat := 34 :: (escapeStr s ++ [34])

/-- Decimal digits of `n`, little-endian, via fuelled division (the fuel
`n` bounds the digit count, so it never runs out). -/
def natDecAux : Nat → Nat → List Nat
  | 0, _ => []
  | f + 1, n => if n = 0 then [] else (n % 10 + 48) :: natDecAux f (n / 10)

/-- Decimal ASCII of a natural number. -/
def natDec (n : Nat) : List Nat :=
  if n = 0 then [48] else (natDecAux n n).reverse

/-- Decimal ASCII of an integer (itoa/`serde_json` format). -/
def intDec (i : Int) : List Nat :=
  if i < 0 then 45 :: natDec (-i).toNat else natDec i.toNat

/-- The `Serialize` name of a `LanguageCode` unit variant. -/
def langName : LanguageCode → Str
  | .JAVA => ascii "JAVA"
  | .CPP => ascii "CPP"
  | .DOTNET => ascii "DOTNET"
  | .PYTHON => ascii "PYTHON"
  | .DELPHI => ascii "DELPHI"
  | .ERLANG => ascii "ERLANG"
  | .RUBY => ascii "RUBY"
  | .OTHER => ascii "OTHER"
  | .HTTP => ascii "HTTP"
  | .GO => ascii "GO"
  | .PHP => ascii "PHP"
  | .OMS => ascii "OMS"

/-- The `Deserialize` of the `LanguageCode` unit enum: exactly the
twelve variant names are accepted. -/
def langOfName? (s : Str) : Option LanguageCode :=
  if s == ascii "JAVA" then some .JAVA
  else if s == ascii "CPP" then some .CPP
  else if s == ascii "DOTNET" then some .DOTNET
  else if s == ascii "PYTHON" then some .PYTHON
  else if s == ascii "DELPHI" then some .DELPHI
  else if s == ascii "ERLANG" then some .ERLANG
  else if s == ascii "RUBY" then some .RUBY
  else if s == ascii "OTHER" then some .OTHER
  else if s == ascii "HTTP" then some .HTTP
  else if s == ascii "GO" then some .GO
  else if s == ascii "PHP" then some .PHP
  else if s == ascii "OMS" then some .OMS
  else none

/-- Comma-join. -/
def joinComma : List (List Nat) → List Nat
  | [] => []
  | [x] => x
  | x :: y :: r => x ++ 44 :: joinComma (y :: r)

/-- A JSON object of string pairs, in iteration order. -/
def jsonStrMap (l : List (Str × Str)) : List Nat :=
  123 :: (joinComma (l.map (fun kv => jsonStr kv.1 ++ 58 :: jsonStr kv.2)) ++ [125])

/-- `JsonHeaderCodec::encode` (`serde_json::to_vec` of `Header`). -/
def jsonHeaderEncode (h : Header) : List Nat :=
  ascii "\x7b\"code\":" ++ intDec h.code ++
    ascii ",\"language\":" ++ jsonStr (langName h.language) ++
    ascii ",\"version\":" ++ intDec h.version ++
    ascii ",\"opaque\":" ++ intDec h.opaqueId ++
    ascii ",\"flag\":" ++ intDec h.flag ++
    ascii ",\"remark\":" ++ jsonStr h.remark ++
    ascii ",\"ext_fields\":" ++ jsonStrMap h.ext_fields ++
    ascii "\x7d"

/-- Expect a literal byte sequence at the head of the stream
(`Error::Json` standing for the `serde_json::Error` on a mismatch). -/
def expectLit : List Nat → List Nat → Except MqError (List Nat)
  | [], s => .ok s
  | _ :: _, [] => .error .json
  | e :: er, b :: br => if b == e then expectLit er br else .error .json

def isDigit (b : Nat) : Bool := decide (48 ≤ b) && decide (b ≤ 57)

/-- Greedily split leading decimal digits from the stream. -/
def takeDigits : List Nat → (List Nat × List Nat)
  | [] => ([], [])
  | b :: r =>
    if isDigit b then
      let p := takeDigits r
      (b :: p.1, p.2)
    else ([], b :: r)

def parseNatDigits (s : List Nat) : Except MqError (Nat × List Nat) :=
  let p := takeDigits s
  if p.1.isEmpty then .error .json
  else .ok (p.1.foldl (fun acc b => acc * 10 + (b - 48)) 0, p.2)

/-- Parse a decimal integer (optional leading minus). -/
def parseInt (s : List Nat) : Except MqError (Int × List Nat) :=
  match s with
  | [] => .error .json
  | b :: r =>
    if b == 45 then
      match parseNatDigits r with
      | .error e => .error e
      | .ok (n, rest) => .ok (-(n : Int), rest)
    else
      match parseNatDigits (b :: r) with
      | .error e => .error e
      | .ok (n, rest) => .ok ((n : Int), rest)

/-- One escape shortcut byte. -/
def escByte? : Nat → Option Nat
  | 34 => some 34
  | 92 => some 92
  | 47 => some 47
  | 98 => some 8
  | 116 => some 9
  | 110 => some 10
  | 102 => some 12
  | 114 => some 13
  | _ => none

def hexVal? : Nat → Option Nat
  | b =>
    if 48 ≤ b ∧ b ≤ 57 then some (b - 48)
    else if 97 ≤ b ∧ b ≤ 102 then some (b - 87)
    else if 65 ≤ b ∧ b ≤ 70 then some (b - 55)
    else none

/-- Body of a JSON string after the opening quote.  `\uXXXX` escapes are
accepted for values below 0x80 — the encoder only ever emits `\u00xx`
for control bytes, so this covers every canonical input. -/
def parseJsonStrBody : List Nat → Except MqError (Str × List Nat)
  | [] => .error .json
  | b :: r =>
    if b == 34 then .ok ([], r)
    else if b == 92 then
      match r with
      | [] => .error .json
      | e :: r2 =>
        if e == 117 then
          match r2 with
          | h1 :: h2 :: h3 :: h4 :: r3 =>
            match hexVal? h1, hexVal? h2, hexVal? h3, hexVal? h4 with
            | some a, some b2, some c, some d =>
              let v := ((a * 16 + b2) * 16 + c) * 16 + d
              if v < 128 then
                match parseJsonStrBody r3 with
                | .error e2 => .error e2
                | .ok (str, rest) => .ok (v :: str, rest)
              else .error .json
            | _, _, _, _ => .error .json
          | _ => .error .json
        else
          match escByte? e with
          | some v =>
            match parseJsonStrBody r2 with
            | .error e2 => .error e2
            | .ok (str, rest) => .ok (v :: str, rest)
          | none => .error .json
    else
      match parseJsonStrBody r with
      | .error e2 => .error e2
      | .ok (str, rest) => .ok (b :: str, rest)

/-- Parse a JSON string literal. -/
def parseJsonStr : List Nat → Except MqError (Str × List Nat)
  | 34 :: r => parseJsonStrBody r
  | _ => .error .json

/-- Entries of a JSON object of string pairs, inserted into the map in
parse order.  Every entry consumes at least one byte, so the fuel
(set to `input length + 1`) never runs out. -/
def parseJsonMapEntries : Nat → List (Str × Str) → List Nat →
    Except MqError (List (Str × Str) × List Nat)
  | 0, _, _ => .error .json
  | fuel + 1, acc, s =>
    match parseJsonStr s with
    | .error e => .error e
    | .ok (k, s1) =>
      match s1 with
      | 58 :: s2 =>
        match parseJsonStr s2 with
        | .error e => .error e
        | .ok (v, s3) =>
          match s3 with
          | 44 :: s4 => parseJsonMapEntries fuel (ainsert k v acc) s4
          | 125 :: s4 => .ok (ainsert k v acc, s4)
          | _ => .error .json
      | _ => .error .json

/-- Parse a JSON object of string pairs. -/
def parseJsonMap (s : List Nat) : Except MqError (List (Str × Str) × List Nat) :=
  match s with
  | 123 :: 125 :: r => .ok ([], r)
  | 123 :: r => parseJsonMapEntries (r.length + 1) [] r
  | _ => .error .json

/-- Range check applied by serde when deserializing into `i16`/`i32`. -/
def intInRange (lo hi i : Int) : Except MqError Int :=
  if lo ≤ i ∧ i < hi then .ok i else .error .json

/-- `JsonHeaderCodec::decode` (`serde_json::from_slice` of `Header`)
restricted to the canonical serialized form `jsonHeaderEncode` emits:
this is the grammar the round-trip theorems traverse.  It is a partial
model — real serde_json also accepts whitespace, reordered fields and
absent defaulted fields — so no theorem quantifies over its error set:
an `Error.json` here only means "not the canonical serialization". -/
def jsonHeaderDecode (buf : List Nat) : Except MqError Header :=
  match expectLit (ascii "\x7b\"code\":") buf with
  | .error e => .error e
  | .ok s1 =>
    match parseInt s1 with
    | .error e => .error e
    | .ok (codeI, s2) =>
      match intInRange (-(2 ^ 15)) (2 ^ 15) codeI with
      | .error e => .error e
      | .ok code =>
        match expectLit (ascii ",\"language\":") s2 with
        | .error e => .error e
        | .ok s3 =>
          match parseJsonStr s3 with
          | .error e => .error e
          | .ok (lname, s4) =>
            match langOfName? lname with
            | none => .error .json
            | some language =>
              match expectLit (ascii ",\"version\":") s4 with
              | .error e => .error e
              | .ok s5 =>
                match parseInt s5 with
                | .error e => .error e
                | .ok (verI, s6) =>
                  match intInRange (-(2 ^ 15)) (2 ^ 15) verI with
                  | .error e => .error e
                  | .ok version =>
                    match expectLit (ascii ",\"opaque\":") s6 with
                    | .error e => .error e
                    | .ok s7 =>
                      match parseInt s7 with
                      | .error e => .error e
                      | .ok (opqI, s8) =>
                        match intInRange (-(2 ^ 31)) (2 ^ 31) opqI with
                        | .error e => .error e
                        | .ok opaqueId =>
                          match expectLit (ascii ",\"flag\":") s8 with
                          | .error e => .error e
                          | .ok s9 =>
                            match parseInt s9 with
                            | .error e => .error e
                            | .ok (flagI, s10) =>
                              match intInRange (-(2 ^ 31)) (2 ^ 31) flagI with
                              | .error e => .error e
                              | .ok flag =>
                                match expectLit (ascii ",\"remark\":") s10 with
                                | .error e => .error e
                                | .ok s11 =>
                                  match parseJsonStr s11 with
                                  | .error e => .error e
                                  | .ok (remark, s12) =>
                                    match expectLit (ascii ",\"ext_fields\":")
                                      s12 with
                                    | .error e => .error e
                                    | .ok s13 =>
                                      match parseJsonMap s13 with
                                      | .error e => .error e
                                      | .ok (ext_fields, s14) =>
                                        match expectLit (ascii "\x7d") s14 with
                                        | .error e => .error e
                                        | .ok s15 =>
                                          if s15.isEmpty then
                                            .ok ⟨code, language, version,
                                              opaqueId, flag, remark,
                                              ext_fields⟩
                                          else .error .json

/-- Dispatch on the codec tag (`HeaderCodec::encode`). -/
def headerEncode : HeaderCodecType → Header → List Nat
  | .json, h => jsonHeaderEncode h
  | .rocketMQ, h => rmqHeaderEncode h

/-- Dispatch on the codec tag (`HeaderCodec::decode`); the JSON codec
never reaches a panic, the compact codec can. -/
def headerDecode : HeaderCodecType → List Nat → RdOutcome Header
  | .json, b =>
    match jsonHeaderDecode b with
    | .error e => .err e
    | .ok h => .ok h
  | .rocketMQ, b => rmqHeaderDecode b

/-- `RemotingCommand::encode_into` (with `MqCodec::encode` being the
`RocketMQ` instantiation): `[total_length:i32][codec byte | header_len:u24]
[header bytes][body bytes]`. -/
def encode_into (codec : HeaderCodecType) (h : Header) (body : List Nat) :
    List Nat :=
  let header_bytes := headerEncode codec h
  let header_len := header_bytes.length
  let length := HEADER_FIXED_LENGTH + header_len + body.length
  be32 length ++
    [codecTypeByte codec, header_len / 2 ^ 16 % 256, header_len / 2 ^ 8 % 256,
      header_len % 256] ++ header_bytes ++ body

/-- `MqCodec::decode`. -/
def mqDecode (src : List Nat) : DecodeOutcome :=
  if src.length < HEADER_FIXED_LENGTH then .incomplete
  else
    let lengthU := beVal (src.take 4)
    let buf := src.drop 4
    let lengthUsize := usizeOfU32 lengthU
    if buf.length < lengthUsize then .incomplete
    else
      match readBytes 4 buf with
      | .error e => .err e
      | .ok (originB, buf2) =>
        let origin := beVal originB
        let header_len := origin % 2 ^ 24
        match readBytes header_len buf2 with
        | .error e => .err e
        | .ok (header_buf, buf3) =>
          match codecOfByte? (origin / 2 ^ 24) with
          | none => .err .invalidHeaderCodec
          | some codec =>
            match headerDecode codec header_buf with
            | .err e => .err e
            | .panicked => .panicked
            | .ok header =>
              if lengthUsize < HEADER_FIXED_LENGTH + header_len then .panicked
              else
                let body_len := lengthUsize - HEADER_FIXED_LENGTH - header_len
                match readBytes body_len buf3 with
                | .error e => .err e
                | .ok (body, _) =>
                  .ok ⟨header, body⟩
                    (src.drop (HEADER_FIXED_LENGTH + lengthUsize))

/-! ### Helper lemmas: reads over concatenated buffers -/

theorem take_append_of_len {α : Type} {l r : List α} {n : Nat}
    (h : l.length = n) : (l ++ r).take n = l := by
  subst h
  exact List.take_left l r

theorem drop_append_of_len {α : Type} {l r : List α} {n : Nat}
    (h : l.length = n) : (l ++ r).drop n = r := by
  subst h
  exact List.drop_left l r

theorem readBytes_append {l r : List Nat} {n : Nat} (h : l.length = n) :
    readBytes n (l ++ r) = .ok (l, r) := by
  unfold readBytes
  rw [if_neg (by simp [List.length_append]; omega)]
  rw [take_append_of_len h, drop_append_of_len h]

theorem length_be16 (n : Nat) : (be16 n).length = 2 := rfl

theorem length_be32 (n : Nat) : (be32 n).length = 4 := rfl

theorem beVal_be16 {n : Nat} (h : n < 2 ^ 16) : beVal (be16 n) = n := by
  simp [beVal, be16, List.foldl]
  omega

theorem beVal_be32 {n : Nat} (h : n < 2 ^ 32) : beVal (be32 n) = n := by
  simp [beVal, be32, List.foldl]
  omega

theorem readU16E_be16 {n : Nat} (r : List Nat) (h : n < 2 ^ 16) :
    readU16E (be16 n ++ r) = .ok (n, r) := by
  unfold readU16E
  rw [readBytes_append (length_be16 n)]
  dsimp only
  rw [beVal_be16 h]

theorem readU32E_be32 {n : Nat} (r : List Nat) (h : n < 2 ^ 32) :
    readU32E (be32 n ++ r) = .ok (n, r) := by
  unfold readU32E
  rw [readBytes_append (length_be32 n)]
  dsimp only
  rw [beVal_be32 h]

theorem readString_append {l r : List Nat} {n : Nat} (hl : l.length = n)
    (hv : isValidUtf8 l = true) : readString n (l ++ r) = .ok (l, r) := by
  unfold readString
  rw [readBytes_append hl]
  dsimp only
  rw [hv]
  rfl

theorem usizeOfU32_small {n : Nat} (h : n < 2 ^ 31) : usizeOfU32 n = n := by
  unfold usizeOfU32
  rw [if_pos h]

theorem usizeOfU16_small {n : Nat} (h : n < 2 ^ 15) : usizeOfU16 n = n := by
  unfold usizeOfU16
  rw [if_pos h]

theorem i16ofU16_u16ofInt {i : Int} (hlo : -(2 ^ 15) ≤ i) (hhi : i < 2 ^ 15) :
    i16ofU16 (u16ofInt i) = i := by
  unfold i16ofU16 u16ofInt
  omega

theorem i32ofU32_u32ofInt {i : Int} (hlo : -(2 ^ 31) ≤ i) (hhi : i < 2 ^ 31) :
    i32ofU32 (u32ofInt i) = i := by
  unfold i32ofU32 u32ofInt
  omega

theorem u16ofInt_lt (i : Int) : u16ofInt i < 2 ^ 16 := by
  unfold u16ofInt
  omega

theorem u32ofInt_lt (i : Int) : u32ofInt i < 2 ^ 32 := by
  unfold u32ofInt
  omega

/-- A raw frame with an arbitrary codec byte: the exact byte layout
produced by `encode_into` (which uses `codecTypeByte codec`). -/
def rawFrame (cb : Nat) (hb body : List Nat) : List Nat :=
  be32 (HEADER_FIXED_LENGTH + hb.length + body.length) ++
    [cb, hb.length / 2 ^ 16 % 256, hb.length / 2 ^ 8 % 256,
      hb.length % 256] ++ hb ++ body

theorem encode_into_eq_rawFrame (codec : HeaderCodecType) (h : Header)
    (body : List Nat) :
    encode_into codec h body =
      rawFrame (codecTypeByte codec) (headerEncode codec h) body := rfl

/-- Inversion of `MqCodec::decode` on a well-formed single frame: the
codec byte is dispatched (unknown → `InvalidHeaderCodec`), the selected
header codec's result is propagated, and the body is split off
exactly. -/
theorem mqDecode_rawFrame (cb : Nat) (hb body : List Nat)
    (hhb : hb.length < 2 ^ 24)
    (htot : 4 + hb.length + body.length < 2 ^ 31) :
    mqDecode (rawFrame cb hb body) =
      (match codecOfByte? cb with
      | none => .err .invalidHeaderCodec
      | some codec =>
        match headerDecode codec hb with
        | .err e => .err e
        | .panicked => .panicked
        | .ok header => .ok ⟨header, body⟩ []) := by
  have hframe : rawFrame cb hb body =
      be32 (4 + hb.length + body.length) ++
        ([cb, hb.length / 2 ^ 16 % 256, hb.length / 2 ^ 8 % 256,
          hb.length % 256] ++ (hb ++ body)) := by
    simp [rawFrame, HEADER_FIXED_LENGTH, List.append_assoc]
  rw [hframe]
  simp only [mqDecode, HEADER_FIXED_LENGTH]
  rw [take_append_of_len (length_be32 _), drop_append_of_len (length_be32 _)]
  rw [beVal_be32 (by omega)]
  rw [usizeOfU32_small (by omega)]
  rw [if_neg (by
    simp only [List.length_append, List.length_cons, List.length_nil,
      length_be32]
    omega)]
  rw [if_neg (by
    simp only [List.length_append, List.length_cons, List.length_nil]
    omega)]
  rw [readBytes_append (show ([cb, hb.length / 2 ^ 16 % 256,
    hb.length / 2 ^ 8 % 256, hb.length % 256] : List Nat).length = 4 from rfl)]
  dsimp only
  have hbeval : beVal [cb, hb.length / 2 ^ 16 % 256, hb.length / 2 ^ 8 % 256,
      hb.length % 256] = cb * 2 ^ 24 + hb.length := by
    simp [beVal, List.foldl]
    omega
  rw [hbeval]
  have hmod : (cb * 2 ^ 24 + hb.length) % 2 ^ 24 = hb.length := by omega
  have hdiv : (cb * 2 ^ 24 + hb.length) / 2 ^ 24 = cb := by omega
  rw [hmod, hdiv, readBytes_append rfl]
  dsimp only
  cases hc : codecOfByte? cb with
  | none => rfl
  | some codec =>
    dsimp only
    cases hd : headerDecode codec hb with
    | err e => rfl
    | panicked => rfl
    | ok header =>
      dsimp only
      rw [if_neg (by omega)]
      have hbl : 4 + hb.length + body.length - 4 - hb.length = body.length := by
        omega
      rw [hbl]
      have hrb : readBytes body.length body = .ok (body, []) := by
        unfold readBytes
        rw [if_neg (by omega), List.take_length, List.drop_length]
      rw [hrb]
      dsimp only
      have hdrop : (be32 (4 + hb.length + body.length) ++
          ([cb, hb.length / 2 ^ 16 % 256, hb.length / 2 ^ 8 % 256,
            hb.length % 256] ++ (hb ++ body))).drop
          (4 + (4 + hb.length + body.length)) = [] := by
        apply List.drop_eq_nil_of_le
        simp [length_be32]
        omega
      rw [hdrop]

theorem codecOfByte?_codecTypeByte (c : HeaderCodecType) :
    codecOfByte? (codecTypeByte c) = some c := by
  cases c <;> rfl

theorem length_rawFrame (cb : Nat) (hb body : List Nat) :
    (rawFrame cb hb body).length = 8 + hb.length + body.length := by
  simp [rawFrame, length_be32, HEADER_FIXED_LENGTH]
  omega

/-- Every strict prefix of a frame decodes to `incomplete` (the
`Ok(None)` outcome): either fewer than 4 bytes are available, or the
parsed `total_length` exceeds the bytes that follow it. -/
theorem mqDecode_prefix_incomplete (cb : Nat) (hb body : List Nat) (k : Nat)
    (htot : 4 + hb.length + body.length < 2 ^ 31)
    (hk : k < (rawFrame cb hb body).length) :
    mqDecode ((rawFrame cb hb body).take k) = .incomplete := by
  have hlen := length_rawFrame cb hb body
  by_cases hk4 : k < 4
  · unfold mqDecode
    rw [if_pos]
    simp only [List.length_take, HEADER_FIXED_LENGTH]
    omega
  · have hframe : rawFrame cb hb body =
        be32 (4 + hb.length + body.length) ++
          ([cb, hb.length / 2 ^ 16 % 256, hb.length / 2 ^ 8 % 256,
            hb.length % 256] ++ (hb ++ body)) := by
      simp [rawFrame, HEADER_FIXED_LENGTH, List.append_assoc]
    simp only [mqDecode, HEADER_FIXED_LENGTH]
    rw [if_neg (by simp only [List.length_take]; omega)]
    have htk : ((rawFrame cb hb body).take k).take 4 =
        be32 (4 + hb.length + body.length) := by
      rw [List.take_take, show min 4 k = 4 by omega, hframe,
        take_append_of_len (length_be32 _)]
    rw [htk, beVal_be32 (by omega), usizeOfU32_small (by omega)]
    rw [if_pos]
    simp only [List.length_drop, List.length_take]
    omega

theorem readBytes_ok_inv {n : Nat} {s bs r : List Nat}
    (h : readBytes n s = .ok (bs, r)) : bs = s.take n ∧ r = s.drop n := by
  unfold readBytes at h
  split at h
  · cases h
  · cases h
    exact ⟨rfl, rfl⟩

/-- The JSON header codec path never reaches the panic outcome: it wraps
an `Except`. -/
theorem headerDecode_json_no_panic (b : List Nat) :
    headerDecode .json b ≠ .panicked := by
  unfold headerDecode
  cases hj : jsonHeaderDecode b <;> simp [hj]

/-- `mqDecode` reaches the `panicked` outcome in exactly two ways: the
declared total length is smaller than `4 +` the declared header length
(the unchecked `usize` subtraction computing `body_len` — debug panic,
release wrap reaching the `vec![0; body_len]` capacity overflow), or the
compact header codec hit a capacity-overflow panic on a sign-extended
negative length prefix inside the header bytes. -/
theorem mqDecode_panicked_inversion (src : List Nat)
    (h : mqDecode src = .panicked) :
    usizeOfU32 (beVal (src.take 4)) <
      4 + beVal ((src.drop 4).take 4) % 2 ^ 24 ∨
    (codecOfByte? (beVal ((src.drop 4).take 4) / 2 ^ 24) =
        some .rocketMQ ∧
      rmqHeaderDecode (((src.drop 4).drop 4).take
        (beVal ((src.drop 4).take 4) % 2 ^ 24)) = .panicked) := by
  unfold mqDecode at h
  split at h
  · cases h
  · dsimp only at h
    split at h
    · cases h
    · split at h
      · cases h
      · rename_i originB buf2 hro
        split at h
        · cases h
        · rename_i headerBuf buf3 hrh
          split at h
          · cases h
          · rename_i codec hcodec
            split at h
            · cases h
            · rename_i hhd
              cases codec with
              | json => exact absurd hhd (headerDecode_json_no_panic _)
              | rocketMQ =>
                refine Or.inr ⟨?_, ?_⟩
                · rw [← (readBytes_ok_inv hro).1]
                  exact hcodec
                · rw [← (readBytes_ok_inv hro).1, ← (readBytes_ok_inv hro).2,
                    ← (readBytes_ok_inv hrh).1]
                  exact hhd
            · rename_i header hhd
              split at h
              · rename_i hcond
                refine Or.inl ?_
                have horig := (readBytes_ok_inv hro).1
                rw [horig] at hcond
                simpa [HEADER_FIXED_LENGTH] using hcond
              · split at h <;> cases h

/-! ### Claim C2 -/

/-- C2 (amended): a truncated valid frame is signalled by the
`Ok(None)` / `incomplete` outcome of the `tokio_util` decoder contract
(awaiting more bytes), not by an error; an unrecognized codec byte (in a
frame whose bytes are fully available) yields the invalid-header-codec
error; for the compact codec both decode errors (io / invalid language /
invalid UTF-8) and the deterministic capacity-overflow panic on a
sign-extended negative remark/key/value length prefix propagate as the
frame decode's outcome; and decoding panics in exactly two ways — the
unchecked body-length subtraction on a total length smaller than 4 plus
the header length, or such a compact-header capacity-overflow panic. -/
theorem c2_decode_failure_classes :
    (∀ (codec : HeaderCodecType) (h : Header) (body : List Nat) (k : Nat),
      4 + (headerEncode codec h).length + body.length < 2 ^ 31 →
      k < (encode_into codec h body).length →
      mqDecode ((encode_into codec h body).take k) = .incomplete)
    ∧ (∀ (cb : Nat) (hb body : List Nat), codecOfByte? cb = none →
      hb.length < 2 ^ 24 → 4 + hb.length + body.length < 2 ^ 31 →
      mqDecode (rawFrame cb hb body) = .err .invalidHeaderCodec)
    ∧ (∀ (hb body : List Nat),
      hb.length < 2 ^ 24 → 4 + hb.length + body.length < 2 ^ 31 →
      (∀ e : MqError, rmqHeaderDecode hb = .err e →
        mqDecode (rawFrame (codecTypeByte .rocketMQ) hb body) = .err e) ∧
      (rmqHeaderDecode hb = .panicked →
        mqDecode (rawFrame (codecTypeByte .rocketMQ) hb body) = .panicked))
    ∧ (∀ src : List Nat, mqDecode src = .panicked →
      usizeOfU32 (beVal (src.take 4)) <
        4 + beVal ((src.drop 4).take 4) % 2 ^ 24 ∨
      (codecOfByte? (beVal ((src.drop 4).take 4) / 2 ^ 24) =
          some .rocketMQ ∧
        rmqHeaderDecode (((src.drop 4).drop 4).take
          (beVal ((src.drop 4).take 4) % 2 ^ 24)) = .panicked)) := by
  refine ⟨?_, ?_, ?_, mqDecode_panicked_inversion⟩
  · intro codec h body k htot hk
    rw [encode_into_eq_rawFrame] at hk ⊢
    exact mqDecode_prefix_incomplete _ _ _ k htot hk
  · intro cb hb body hcb hhb htot
    rw [mqDecode_rawFrame cb hb body hhb htot, hcb]
  · intro hb body hhb htot
    constructor
    · intro e hdec
      rw [mqDecode_rawFrame _ hb body hhb htot, codecOfByte?_codecTypeByte]
      dsimp only
      rw [show headerDecode .rocketMQ hb = rmqHeaderDecode hb from rfl, hdec]
    · intro hdec
      rw [mqDecode_rawFrame _ hb body hhb htot, codecOfByte?_codecTypeByte]
      dsimp only
      rw [show headerDecode .rocketMQ hb = rmqHeaderDecode hb from rfl, hdec]

/-- Witness for C2: each conjunct applied at a concrete input — a
5-byte prefix of an encoded frame is incomplete; codec byte 7 is
rejected; an empty compact header buffer propagates the io error; a
compact header whose remark length prefix is `-1` (bytes
`FF FF FF FF`, sign-extended past `isize::MAX`) drives the
capacity-overflow panic through the frame decoder; and a concrete frame
whose declared length (24) is one short of 4 + header_len (21) drives
the subtraction panic, satisfying the inversion's disjunction. -/
theorem c2_decode_failure_classes_witness :
    mqDecode ((encode_into .rocketMQ
      ⟨0, .OTHER, 0, 0, 0, [], []⟩ [1]).take 5) = .incomplete ∧
    mqDecode (rawFrame 7 [0] []) = .err .invalidHeaderCodec ∧
    mqDecode (rawFrame 1 [] [2]) = .err .io ∧
    mqDecode (rawFrame 1
      [0, 0, 7, 0, 0, 0, 0, 0, 0, 0, 0, 0, 0, 255, 255, 255, 255] []) =
      .panicked ∧
    (mqDecode ([0, 0, 0, 24] ++ [1, 0, 0, 21] ++
        rmqHeaderEncode ⟨0, .OTHER, 0, 0, 0, [], []⟩) = .panicked ∧
      (usizeOfU32 (beVal (([0, 0, 0, 24] ++ [1, 0, 0, 21] ++
          rmqHeaderEncode ⟨0, .OTHER, 0, 0, 0, [], []⟩).take 4)) <
        4 + beVal ((([0, 0, 0, 24] ++ [1, 0, 0, 21] ++
          rmqHeaderEncode ⟨0, .OTHER, 0, 0, 0, [], []⟩).drop 4).take 4) %
          2 ^ 24 ∨
      (codecOfByte? (beVal ((([0, 0, 0, 24] ++ [1, 0, 0, 21] ++
            rmqHeaderEncode ⟨0, .OTHER, 0, 0, 0, [], []⟩).drop 4).take 4) /
            2 ^ 24) = some .rocketMQ ∧
        rmqHeaderDecode (((([0, 0, 0, 24] ++ [1, 0, 0, 21] ++
          rmqHeaderEncode ⟨0, .OTHER, 0, 0, 0, [], []⟩).drop 4).drop 4).take
          (beVal ((([0, 0, 0, 24] ++ [1, 0, 0, 21] ++
            rmqHeaderEncode ⟨0, .OTHER, 0, 0, 0, [], []⟩).drop 4).take 4) %
            2 ^ 24)) = .panicked))) := by
  refine ⟨?_, ?_, ?_, ?_, ?_⟩
  · exact c2_decode_failure_classes.1 .rocketMQ ⟨0, .OTHER, 0, 0, 0, [], []⟩
      [1] 5 (by decide) (by decide)
  · exact c2_decode_failure_classes.2.1 7 [0] [] (by decide) (by decide)
      (by decide)
  · exact (c2_decode_failure_classes.2.2.1 [] [2] (by decide)
      (by decide)).1 .io (by decide)
  · exact (c2_decode_failure_classes.2.2.1
      [0, 0, 7, 0, 0, 0, 0, 0, 0, 0, 0, 0, 0, 255, 255, 255, 255] []
      (by decide) (by decide)).2 (by decide)
  · have hp : mqDecode ([0, 0, 0, 24] ++ [1, 0, 0, 21] ++
        rmqHeaderEncode ⟨0, .OTHER, 0, 0, 0, [], []⟩) = .panicked := by decide
    exact ⟨hp, c2_decode_failure_classes.2.2.2 _ hp⟩

/-- Counterexample to C2 as stated: a strict prefix (first 5 bytes) of a
valid encoded frame is NOT rejected with an error — `MqCodec::decode`
returns `Ok(None)` (the `incomplete` outcome) to request more bytes. -/
theorem c2_counterexample :
    ((encode_into .rocketMQ ⟨0, .OTHER, 0, 0, 0, [], []⟩ [1]).take 5).length <
      (encode_into .rocketMQ ⟨0, .OTHER, 0, 0, 0, [], []⟩ [1]).length ∧
    mqDecode ((encode_into .rocketMQ ⟨0, .OTHER, 0, 0, 0, [], []⟩ [1]).take 5) =
      .incomplete ∧
    ∀ e : MqError,
      mqDecode ((encode_into .rocketMQ ⟨0, .OTHER, 0, 0, 0, [], []⟩
        [1]).take 5) ≠ .err e := by
  have hinc : mqDecode ((encode_into .rocketMQ ⟨0, .OTHER, 0, 0, 0, [], []⟩
      [1]).take 5) = .incomplete := by decide
  refine ⟨by decide, hinc, ?_⟩
  intro e he
  rw [hinc] at he
  simp at he

/-! ### Association-list (HashMap) equivalence -/

/-- `HashMap` equality: same lookups at every key. -/
def ExtEquiv (m₁ m₂ : List (Str × Str)) : Prop :=
  ∀ k, alookup m₁ k = alookup m₂ k

theorem alookup_ainsert {β : Type} (k : Str) (v : β)
    (m : List (Str × β)) (k' : Str) :
    alookup (ainsert k v m) k' = if k = k' then some v else alookup m k' := by
  induction m with
  | nil =>
    simp [ainsert, alookup, beq_iff_eq]
  | cons kv t ih =>
    obtain ⟨k2, v2⟩ := kv
    unfold ainsert
    by_cases h2 : k2 = k
    · subst h2
      simp only [beq_self_eq_true, if_pos]
      by_cases h' : k2 = k'
      · subst h'
        simp [alookup]
      · simp [alookup, beq_iff_eq, h']
    · rw [if_neg (by simpa using h2)]
      by_cases h' : k2 = k'
      · subst h'
        have hkk : ¬ k = k2 := fun hc => h2 hc.symm
        simp [alookup, beq_iff_eq, hkk]
      · simp only [alookup, beq_iff_eq, if_neg h', ih]

theorem alookup_none_of_not_mem {β : Type} {l : List (Str × β)} {k : Str}
    (h : k ∉ l.map Prod.fst) : alookup l k = none := by
  induction l with
  | nil => rfl
  | cons kv t ih =>
    simp only [List.map_cons, List.mem_cons] at h
    push_neg at h
    unfold alookup
    rw [if_neg (by simpa using fun hc : kv.1 = k => h.1 hc.symm), ih h.2]

/-- Lookup through a left fold of inserts: entries of `l` (whose keys
are distinct) override the accumulator. -/
theorem alookup_foldl_ainsert {l : List (Str × Str)}
    (hnd : (l.map Prod.fst).Nodup) :
    ∀ (acc : List (Str × Str)) (k : Str),
      alookup (l.foldl (fun a kv => ainsert kv.1 kv.2 a) acc) k =
        match alookup l k with
        | some v => some v
        | none => alookup acc k := by
  induction l with
  | nil =>
    intro acc k
    rfl
  | cons kv t ih =>
    intro acc k
    rw [List.map_cons, List.nodup_cons] at hnd
    rw [List.foldl_cons, ih hnd.2]
    by_cases hk : kv.1 = k
    · subst hk
      have hnone : alookup t kv.1 = none := alookup_none_of_not_mem hnd.1
      rw [hnone]
      simp only [alookup, beq_self_eq_true, if_pos, alookup_ainsert, if_pos rfl]
    · have : alookup ((kv.1, kv.2) :: t) k = alookup t k := by
        simp [alookup, beq_iff_eq, hk]
      rw [show (kv :: t) = ((kv.1, kv.2) :: t) from rfl, this]
      cases halt : alookup t k with
      | some v => rfl
      | none =>
        rw [alookup_ainsert, if_neg hk]

/-- The decoded ext map (a fold of inserts over the entry list) is
lookup-equivalent to the entry list itself when the keys are distinct. -/
theorem extEquiv_foldl {l : List (Str × Str)}
    (hnd : (l.map Prod.fst).Nodup) :
    ExtEquiv (l.foldl (fun a kv => ainsert kv.1 kv.2 a) []) l := by
  intro k
  rw [alookup_foldl_ainsert hnd []]
  cases halt : alookup l k with
  | some v => rfl
  | none => rfl

/-! ### Round-trip of the compact codec -/

theorem encode_map_cons (kv : Str × Str) (t : List (Str × Str)) :
    encode_map (kv :: t) =
      (be16 kv.1.length ++ kv.1 ++ be32 kv.2.length ++ kv.2) ++
        encode_map t := by
  simp [encode_map]

theorem length_le_encode_map (l : List (Str × Str)) :
    l.length ≤ (encode_map l).length := by
  induction l with
  | nil => simp [encode_map]
  | cons kv t ih =>
    rw [encode_map_cons]
    simp only [List.length_append, List.length_cons, length_be16, length_be32]
    omega

/-- The ext-entry loop consumes exactly one encoded entry per iteration
and folds the entries into the accumulator map. -/
theorem readExtEntries_encode_map :
    ∀ (l : List (Str × Str)) (fuel bytesRead : Nat)
      (acc : List (Str × Str)) (rest : List Nat),
      (∀ kv ∈ l, isValidUtf8 kv.1 = true ∧ kv.1.length < 2 ^ 15 ∧
        isValidUtf8 kv.2 = true ∧ kv.2.length < 2 ^ 31) →
      l.length < fuel →
      readExtEntries fuel bytesRead (bytesRead + (encode_map l).length) acc
        (encode_map l ++ rest) =
        .ok (l.foldl (fun a kv => ainsert kv.1 kv.2 a) acc, rest) := by
  intro l
  induction l with
  | nil =>
    intro fuel bytesRead acc rest _ _
    unfold readExtEntries
    rw [if_neg (by simp [encode_map])]
    simp [encode_map]
  | cons kv t ih =>
    intro fuel bytesRead acc rest hwf hfuel
    have hkv := hwf kv (List.mem_cons_self kv t)
    cases fuel with
    | zero => omega
    | succ f =>
      rw [encode_map_cons]
      unfold readExtEntries
      rw [if_pos (by
        simp only [List.length_append, List.length_cons, length_be16,
          length_be32]
        omega)]
      have hstream : (be16 kv.1.length ++ kv.1 ++ be32 kv.2.length ++ kv.2) ++
          encode_map t ++ rest =
          be16 kv.1.length ++ (kv.1 ++ (be32 kv.2.length ++ (kv.2 ++
            (encode_map t ++ rest)))) := by
        simp [List.append_assoc]
      rw [hstream]
      rw [readU16E_be16 _ (by omega)]
      dsimp only
      rw [usizeOfU16_small hkv.2.1]
      rw [if_neg (by
        simp only [ISIZE_MAX]
        have := hkv.2.1
        omega)]
      rw [readBytes_append rfl]
      dsimp only
      rw [readU32E_be32 _ (by omega)]
      dsimp only
      rw [usizeOfU32_small hkv.2.2.2]
      rw [if_neg (by
        simp only [ISIZE_MAX]
        have := hkv.2.2.2
        omega)]
      rw [readBytes_append rfl]
      dsimp only
      rw [hkv.1, hkv.2.2.1]
      simp only [if_true]
      have hext : bytesRead + ((be16 kv.1.length ++ kv.1 ++
          be32 kv.2.length ++ kv.2) ++ encode_map t).length =
          (bytesRead + 2 + kv.1.length + 4 + kv.2.length) +
            (encode_map t).length := by
        simp only [List.length_append, length_be16, length_be32]
        omega
      rw [hext]
      rw [ih f (bytesRead + 2 + kv.1.length + 4 + kv.2.length)
        (ainsert kv.1 kv.2 acc) rest
        (fun kv' hm => hwf kv' (List.mem_cons_of_mem kv hm))
        (by simpa using Nat.lt_of_succ_lt_succ (by simpa using hfuel))]
      rfl

/-- `readExtEntries_encode_map` specialised to an exactly-consumed
buffer. -/
theorem readExtEntries_encode_map_no_rest (l : List (Str × Str))
    (fuel bytesRead : Nat) (acc : List (Str × Str))
    (hwf : ∀ kv ∈ l, isValidUtf8 kv.1 = true ∧ kv.1.length < 2 ^ 15 ∧
      isValidUtf8 kv.2 = true ∧ kv.2.length < 2 ^ 31)
    (hfuel : l.length < fuel) :
    readExtEntries fuel bytesRead (bytesRead + (encode_map l).length) acc
      (encode_map l) =
      .ok (l.foldl (fun a kv => ainsert kv.1 kv.2 a) acc, []) := by
  have := readExtEntries_encode_map l fuel bytesRead acc [] hwf hfuel
  simpa using this

/-- Well-formedness of a header as the Rust type system guarantees it:
integer fields within their `i16`/`i32` ranges, string fields valid
UTF-8 (Rust `String`s always are), lengths within the ranges the
length-prefix casts require, and distinct ext keys (a `HashMap` cannot
hold two entries with equal keys). -/
def WFHeader (h : Header) : Prop :=
  -(2 ^ 15) ≤ h.code ∧ h.code < 2 ^ 15 ∧
  -(2 ^ 15) ≤ h.version ∧ h.version < 2 ^ 15 ∧
  -(2 ^ 31) ≤ h.opaqueId ∧ h.opaqueId < 2 ^ 31 ∧
  -(2 ^ 31) ≤ h.flag ∧ h.flag < 2 ^ 31 ∧
  isValidUtf8 h.remark = true ∧ h.remark.length < 2 ^ 31 ∧
  (∀ kv ∈ h.ext_fields, isValidUtf8 kv.1 = true ∧ kv.1.length < 2 ^ 15 ∧
    isValidUtf8 kv.2 = true ∧ kv.2.length < 2 ^ 31) ∧
  (encode_map h.ext_fields).length < 2 ^ 31 ∧
  (h.ext_fields.map Prod.fst).Nodup

/-- Decoding an encoded compact header recovers every field except
`language`, which comes back as the fixed `OTHER` byte the encoder
writes; the ext map comes back as the insert-fold of the entries. -/
theorem rmqHeaderDecode_encode (h : Header) (hwf : WFHeader h) :
    rmqHeaderDecode (rmqHeaderEncode h) =
      .ok ⟨h.code, .OTHER, h.version, h.opaqueId, h.flag, h.remark,
        h.ext_fields.foldl (fun a kv => ainsert kv.1 kv.2 a) []⟩ := by
  obtain ⟨hc1, hc2, hv1, hv2, ho1, ho2, hf1, hf2, hr1, hr2, hext, hel, hnd⟩ :=
    hwf
  unfold rmqHeaderEncode
  have hstream : be16 (u16ofInt h.code) ++ [LanguageCode.OTHER.toByte] ++
      be16 (u16ofInt h.version) ++ be32 (u32ofInt h.opaqueId) ++
      be32 (u32ofInt h.flag) ++ be32 h.remark.length ++ h.remark ++
      be32 (encode_map h.ext_fields).length ++ encode_map h.ext_fields =
      be16 (u16ofInt h.code) ++ ([LanguageCode.OTHER.toByte] ++
        (be16 (u16ofInt h.version) ++ (be32 (u32ofInt h.opaqueId) ++
          (be32 (u32ofInt h.flag) ++ (be32 h.remark.length ++ (h.remark ++
            (be32 (encode_map h.ext_fields).length ++
              encode_map h.ext_fields))))))) := by
    simp [List.append_assoc]
  rw [hstream]
  unfold rmqHeaderDecode
  rw [readU16E_be16 _ (u16ofInt_lt h.code)]
  dsimp only
  rw [List.singleton_append]
  dsimp only [readU8E]
  rw [show LanguageCode.ofByte? LanguageCode.OTHER.toByte = some .OTHER
    from rfl]
  dsimp only
  rw [readU16E_be16 _ (u16ofInt_lt h.version)]
  dsimp only
  rw [readU32E_be32 _ (u32ofInt_lt h.opaqueId)]
  dsimp only
  rw [readU32E_be32 _ (u32ofInt_lt h.flag)]
  dsimp only
  rw [readU32E_be32 _ (by omega : h.remark.length < 2 ^ 32)]
  dsimp only
  rw [usizeOfU32_small hr2]
  have hremark : ((if 0 < h.remark.length then
      (if ISIZE_MAX < h.remark.length then .panicked
       else match readString h.remark.length (h.remark ++
          (be32 (encode_map h.ext_fields).length ++
            encode_map h.ext_fields)) with
         | .error e => .err e
         | .ok p => .ok p)
      else .ok ([], h.remark ++ (be32 (encode_map h.ext_fields).length ++
        encode_map h.ext_fields))) : RdOutcome (Str × List Nat)) =
      .ok (h.remark, be32 (encode_map h.ext_fields).length ++
        encode_map h.ext_fields) := by
    cases hre : h.remark with
    | nil =>
      rw [if_neg (by simp)]
      simp
    | cons b r =>
      rw [← hre, if_pos (by rw [hre]; simp),
        if_neg (by
          simp only [ISIZE_MAX]
          omega),
        readString_append rfl hr1]
  rw [hremark]
  dsimp only
  rw [readU32E_be32 _ (by omega : (encode_map h.ext_fields).length < 2 ^ 32)]
  dsimp only
  rw [usizeOfU32_small hel]
  rw [i16ofU16_u16ofInt hc1 hc2, i16ofU16_u16ofInt hv1 hv2,
    i32ofU32_u32ofInt ho1 ho2, i32ofU32_u32ofInt hf1 hf2]
  cases hee : h.ext_fields with
  | nil =>
    rw [if_neg (by simp [encode_map])]
    rfl
  | cons kv t =>
    rw [← hee]
    rw [if_pos (by
      rw [hee, encode_map_cons]
      simp only [List.length_append, length_be16, length_be32]
      omega)]
    rw [show ((encode_map h.ext_fields).length : Nat) =
      0 + (encode_map h.ext_fields).length from by omega]
    rw [readExtEntries_encode_map_no_rest h.ext_fields
      (0 + (encode_map h.ext_fields).length + 1) 0 [] hext
      (by
        have := length_le_encode_map h.ext_fields
        omega)]

/-! ### Round-trip of the JSON codec: numbers -/

/-- The guard a number parse needs: the stream after the number must not
continue with a digit (in the canonical header serialization a comma or
closing brace always follows). -/
def headNotDigit : List Nat → Prop
  | [] => True
  | b :: _ => isDigit b = false

theorem expectLit_append (lit r : List Nat) :
    expectLit lit (lit ++ r) = .ok r := by
  induction lit with
  | nil => rfl
  | cons b t ih =>
    unfold expectLit
    rw [List.cons_append]
    simp only [beq_self_eq_true, if_pos]
    exact ih

theorem natDecAux_mem {f m b : Nat} (h : b ∈ natDecAux f m) :
    48 ≤ b ∧ b ≤ 57 := by
  induction f generalizing m with
  | zero => cases h
  | succ f ih =>
    unfold natDecAux at h
    split at h
    · cases h
    · rcases List.mem_cons.mp h with rfl | h'
      · omega
      · exact ih h'

theorem natDec_digits {n b : Nat} (h : b ∈ natDec n) : isDigit b = true := by
  unfold natDec at h
  split at h
  · rcases List.mem_singleton.mp h with rfl
    rfl
  · have := natDecAux_mem (List.mem_reverse.mp h)
    simp only [isDigit, Bool.and_eq_true, decide_eq_true_eq]
    omega

theorem natDec_ne_nil (n : Nat) : natDec n ≠ [] := by
  unfold natDec
  split
  · simp
  · rename_i hn
    cases n with
    | zero => exact absurd rfl hn
    | succ m =>
      unfold natDecAux
      rw [if_neg hn]
      simp

theorem natDecAux_foldl : ∀ (f n acc : Nat), n ≤ f →
    List.foldl (fun a b => a * 10 + (b - 48)) acc ((natDecAux f n).reverse) =
      acc * 10 ^ (natDecAux f n).length + n := by
  intro f
  induction f with
  | zero =>
    intro n acc h
    have : n = 0 := by omega
    subst this
    simp [natDecAux]
  | succ f ih =>
    intro n acc h
    unfold natDecAux
    by_cases hn : n = 0
    · subst hn
      simp
    · rw [if_neg hn]
      rw [List.reverse_cons, List.foldl_append]
      have hdiv : n / 10 ≤ f := by
        have := Nat.div_lt_self (Nat.pos_of_ne_zero hn) (by omega : 1 < 10)
        omega
      rw [ih (n / 10) acc hdiv]
      simp only [List.foldl_cons, List.foldl_nil, List.length_cons]
      rw [pow_succ]
      have hx : (acc * 10 ^ (natDecAux f (n / 10)).length + n / 10) * 10 =
          acc * (10 ^ (natDecAux f (n / 10)).length * 10) + n / 10 * 10 := by
        ring
      omega

theorem natDec_val (n : Nat) :
    List.foldl (fun a b => a * 10 + (b - 48)) 0 (natDec n) = n := by
  unfold natDec
  split
  · rename_i hn
    subst hn
    rfl
  · have := natDecAux_foldl n n 0 (Nat.le_refl n)
    simpa using this

theorem takeDigits_cons (b : Nat) (r : List Nat) :
    takeDigits (b :: r) =
      if isDigit b = true then (b :: (takeDigits r).1, (takeDigits r).2)
      else ([], b :: r) := rfl

theorem takeDigits_append (ds rest : List Nat)
    (hds : ∀ b ∈ ds, isDigit b = true) (hrest : headNotDigit rest) :
    takeDigits (ds ++ rest) = (ds, rest) := by
  induction ds with
  | nil =>
    cases rest with
    | nil => rfl
    | cons b r =>
      have hb : isDigit b = false := hrest
      rw [List.nil_append, takeDigits_cons, if_neg (by simp [hb])]
  | cons b t ih =>
    rw [List.cons_append, takeDigits_cons,
      if_pos (hds b (List.mem_cons_self b t)),
      ih (fun x hx => hds x (List.mem_cons_of_mem b hx))]

theorem parseNatDigits_natDec (n : Nat) (rest : List Nat)
    (hrest : headNotDigit rest) :
    parseNatDigits (natDec n ++ rest) = .ok (n, rest) := by
  unfold parseNatDigits
  rw [takeDigits_append _ _ (fun b hb => natDec_digits hb) hrest]
  rw [if_neg (by simpa using natDec_ne_nil n)]
  rw [natDec_val]

theorem parseInt_cons (b : Nat) (r : List Nat) :
    parseInt (b :: r) =
      if b == 45 then
        (match parseNatDigits r with
          | .error e => .error e
          | .ok (n, rest) => .ok (-(n : Int), rest))
      else
        (match parseNatDigits (b :: r) with
          | .error e => .error e
          | .ok (n, rest) => .ok ((n : Int), rest)) := rfl

theorem parseInt_intDec (i : Int) (rest : List Nat)
    (hrest : headNotDigit rest) :
    parseInt (intDec i ++ rest) = .ok (i, rest) := by
  unfold intDec
  by_cases hneg : i < 0
  · rw [if_pos hneg, List.cons_append, parseInt_cons]
    simp only [beq_self_eq_true, if_pos]
    rw [parseNatDigits_natDec _ _ hrest]
    dsimp only
    have hcast : -(((-i).toNat : Nat) : Int) = i := by omega
    rw [hcast]
  · rw [if_neg hneg]
    obtain ⟨b, bs, hb⟩ := List.exists_cons_of_ne_nil (natDec_ne_nil i.toNat)
    rw [hb, List.cons_append, parseInt_cons]
    have hbd : isDigit b = true :=
      natDec_digits (hb ▸ List.mem_cons_self b bs)
    rw [if_neg (by
      simp only [isDigit, Bool.and_eq_true, decide_eq_true_eq] at hbd
      simp only [beq_iff_eq]
      omega)]
    rw [← List.cons_append, ← hb, parseNatDigits_natDec _ _ hrest]
    dsimp only
    have hcast : ((i.toNat : Nat) : Int) = i := by omega
    rw [hcast]

/-! ### Round-trip of the JSON codec: strings -/

theorem hexVal?_hexDigit {x : Nat} (h : x < 16) :
    hexVal? (hexDigit x) = some x := by
  unfold hexVal? hexDigit
  by_cases h10 : x < 10
  · rw [if_pos h10, if_pos (by omega)]
    congr 1
    omega
  · rw [if_neg h10, if_neg (by omega), if_pos (by omega)]
    congr 1
    omega

theorem parseJsonStrBody_cons (b : Nat) (r : List Nat) :
    parseJsonStrBody (b :: r) =
      (if b == 34 then .ok ([], r)
      else if b == 92 then
        match r with
        | [] => .error .json
        | e :: r2 =>
          if e == 117 then
            match r2 with
            | h1 :: h2 :: h3 :: h4 :: r3 =>
              match hexVal? h1, hexVal? h2, hexVal? h3, hexVal? h4 with
              | some a, some b2, some c, some d =>
                let v := ((a * 16 + b2) * 16 + c) * 16 + d
                if v < 128 then
                  match parseJsonStrBody r3 with
                  | .error e2 => .error e2
                  | .ok (str, rest) => .ok (v :: str, rest)
                else .error .json
              | _, _, _, _ => .error .json
            | _ => .error .json
          else
            match escByte? e with
            | some v =>
              match parseJsonStrBody r2 with
              | .error e2 => .error e2
              | .ok (str, rest) => .ok (v :: str, rest)
            | none => .error .json
      else
        match parseJsonStrBody r with
        | .error e2 => .error e2
        | .ok (str, rest) => .ok (b :: str, rest)) := by
  conv_lhs => unfold parseJsonStrBody

theorem parseJsonStrBody_quote (r : List Nat) :
    parseJsonStrBody (34 :: r) = .ok ([], r) := by
  rw [parseJsonStrBody_cons]
  simp

theorem parseJsonStrBody_escpair (e v : Nat) (he : escByte? e = some v)
    (hne : (e == 117) = false) (r : List Nat) :
    parseJsonStrBody (92 :: e :: r) =
      (match parseJsonStrBody r with
        | .error e2 => .error e2
        | .ok (str, rest) => .ok (v :: str, rest)) := by
  rw [parseJsonStrBody_cons]
  simp [he, hne]

theorem parseJsonStrBody_unicode (c1 c2 c3 c4 a b2 c d : Nat)
    (h1 : hexVal? c1 = some a) (h2 : hexVal? c2 = some b2)
    (h3 : hexVal? c3 = some c) (h4 : hexVal? c4 = some d)
    (hlt : ((a * 16 + b2) * 16 + c) * 16 + d < 128) (r : List Nat) :
    parseJsonStrBody (92 :: 117 :: c1 :: c2 :: c3 :: c4 :: r) =
      (match parseJsonStrBody r with
        | .error e2 => .error e2
        | .ok (str, rest) =>
          .ok ((((a * 16 + b2) * 16 + c) * 16 + d) :: str, rest)) := by
  rw [parseJsonStrBody_cons]
  simp [h1, h2, h3, h4, hlt]

theorem parseJsonStrBody_raw {b : Nat} (h34 : ¬ b = 34) (h92 : ¬ b = 92)
    (r : List Nat) :
    parseJsonStrBody (b :: r) =
      (match parseJsonStrBody r with
        | .error e2 => .error e2
        | .ok (str, rest) => .ok (b :: str, rest)) := by
  rw [parseJsonStrBody_cons]
  rw [if_neg (by simpa using h34), if_neg (by simpa using h92)]

theorem parseJsonStrBody_escape (s : Str) (rest : List Nat) :
    parseJsonStrBody (escapeStr s ++ (34 :: rest)) = .ok (s, rest) := by
  induction s with
  | nil =>
    rw [show escapeStr [] = [] from rfl, List.nil_append,
      parseJsonStrBody_quote]
  | cons b t ih =>
    unfold escapeStr
    by_cases h34 : b = 34
    · subst h34
      rw [if_pos rfl]
      simp only [List.cons_append, List.nil_append, List.append_assoc]
      rw [parseJsonStrBody_escpair 34 34 rfl rfl, ih]
    · rw [if_neg h34]
      by_cases h92 : b = 92
      · subst h92
        rw [if_pos rfl]
        simp only [List.cons_append, List.nil_append, List.append_assoc]
        rw [parseJsonStrBody_escpair 92 92 rfl rfl, ih]
      · rw [if_neg h92]
        by_cases h8 : b = 8
        · subst h8
          rw [if_pos rfl]
          simp only [List.cons_append, List.nil_append, List.append_assoc]
          rw [parseJsonStrBody_escpair 98 8 rfl rfl, ih]
        · rw [if_neg h8]
          by_cases h9 : b = 9
          · subst h9
            rw [if_pos rfl]
            simp only [List.cons_append, List.nil_append, List.append_assoc]
            rw [parseJsonStrBody_escpair 116 9 rfl rfl, ih]
          · rw [if_neg h9]
            by_cases h10 : b = 10
            · subst h10
              rw [if_pos rfl]
              simp only [List.cons_append, List.nil_append, List.append_assoc]
              rw [parseJsonStrBody_escpair 110 10 rfl rfl, ih]
            · rw [if_neg h10]
              by_cases h12 : b = 12
              · subst h12
                rw [if_pos rfl]
                simp only [List.cons_append, List.nil_append,
                  List.append_assoc]
                rw [parseJsonStrBody_escpair 102 12 rfl rfl, ih]
              · rw [if_neg h12]
                by_cases h13 : b = 13
                · subst h13
                  rw [if_pos rfl]
                  simp only [List.cons_append, List.nil_append,
                    List.append_assoc]
                  rw [parseJsonStrBody_escpair 114 13 rfl rfl, ih]
                · rw [if_neg h13]
                  by_cases hctl : b < 32
                  · rw [if_pos hctl]
                    simp only [List.cons_append, List.nil_append,
                      List.append_assoc]
                    rw [parseJsonStrBody_unicode 48 48 (hexDigit (b / 16))
                      (hexDigit (b % 16)) 0 0 (b / 16) (b % 16) rfl rfl
                      (hexVal?_hexDigit (by omega : b / 16 < 16))
                      (hexVal?_hexDigit (by omega : b % 16 < 16))
                      (by omega) _, ih]
                    have hv : ((0 * 16 + 0) * 16 + b / 16) * 16 + b % 16 =
                        b := by omega
                    rw [hv]
                  · rw [if_neg hctl]
                    simp only [List.cons_append, List.nil_append,
                      List.append_assoc]
                    rw [parseJsonStrBody_raw h34 h92, ih]

theorem parseJsonStr_jsonStr (s : Str) (rest : List Nat) :
    parseJsonStr (jsonStr s ++ rest) = .ok (s, rest) := by
  unfold jsonStr
  rw [List.cons_append]
  unfold parseJsonStr
  rw [List.append_assoc]
  exact parseJsonStrBody_escape s rest

/-! ### Round-trip of the JSON codec: the ext-fields object -/

theorem length_jsonStr_ge (s : Str) : 2 ≤ (jsonStr s).length := by
  simp [jsonStr]

theorem parseJsonMapEntries_succ (f : Nat) (acc : List (Str × Str))
    (s : List Nat) :
    parseJsonMapEntries (f + 1) acc s =
      (match parseJsonStr s with
      | .error e => .error e
      | .ok (k, s1) =>
        match s1 with
        | 58 :: s2 =>
          match parseJsonStr s2 with
          | .error e => .error e
          | .ok (v, s3) =>
            match s3 with
            | 44 :: s4 => parseJsonMapEntries f (ainsert k v acc) s4
            | 125 :: s4 => .ok (ainsert k v acc, s4)
            | _ => .error .json
        | _ => .error .json) := by
  conv_lhs => unfold parseJsonMapEntries

theorem parseJsonMapEntries_encode :
    ∀ (l : List (Str × Str)) (kv : Str × Str) (fuel : Nat)
      (acc : List (Str × Str)) (rest : List Nat), l.length < fuel →
      parseJsonMapEntries fuel acc
        (joinComma ((kv :: l).map
          (fun kv => jsonStr kv.1 ++ 58 :: jsonStr kv.2)) ++ (125 :: rest)) =
        .ok ((kv :: l).foldl (fun a p => ainsert p.1 p.2 a) acc, rest) := by
  intro l
  induction l with
  | nil =>
    intro kv fuel acc rest hf
    cases fuel with
    | zero => omega
    | succ f =>
      rw [parseJsonMapEntries_succ]
      simp only [List.map_cons, List.map_nil, joinComma, List.append_assoc,
        List.cons_append]
      rw [parseJsonStr_jsonStr]
      dsimp only
      rw [parseJsonStr_jsonStr]
      rfl
  | cons kv2 t ih =>
    intro kv fuel acc rest hf
    cases fuel with
    | zero => omega
    | succ f =>
      rw [parseJsonMapEntries_succ]
      have hjc : joinComma ((kv :: kv2 :: t).map
          (fun kv => jsonStr kv.1 ++ 58 :: jsonStr kv.2)) =
          (jsonStr kv.1 ++ 58 :: jsonStr kv.2) ++ 44 ::
            joinComma ((kv2 :: t).map
              (fun kv => jsonStr kv.1 ++ 58 :: jsonStr kv.2)) := by
        simp [joinComma]
      rw [hjc]
      simp only [List.append_assoc, List.cons_append]
      rw [parseJsonStr_jsonStr]
      dsimp only
      rw [parseJsonStr_jsonStr]
      dsimp only
      rw [ih kv2 f (ainsert kv.1 kv.2 acc) rest (by
        simp only [List.length_cons] at hf
        omega)]
      rfl

theorem joinComma_entries_length_ge (l : List (Str × Str)) :
    l.length ≤ (joinComma (l.map
      (fun kv => jsonStr kv.1 ++ 58 :: jsonStr kv.2))).length := by
  induction l with
  | nil => simp [joinComma]
  | cons kv t ih =>
    cases t with
    | nil =>
      have := length_jsonStr_ge kv.1
      simp only [List.map_cons, List.map_nil, joinComma, List.length_cons,
        List.length_nil, List.length_append]
      omega
    | cons kv2 t2 =>
      have h1 := length_jsonStr_ge kv.1
      have hjc : joinComma ((kv :: kv2 :: t2).map
          (fun kv => jsonStr kv.1 ++ 58 :: jsonStr kv.2)) =
          (jsonStr kv.1 ++ 58 :: jsonStr kv.2) ++ 44 ::
            joinComma ((kv2 :: t2).map
              (fun kv => jsonStr kv.1 ++ 58 :: jsonStr kv.2)) := by
        simp [joinComma]
      rw [hjc]
      simp only [List.length_cons, List.length_append] at ih ⊢
      omega

theorem parseJsonMap_eq_entries (X : List Nat) (hX : ∃ q, X = 34 :: q) :
    parseJsonMap (123 :: X) = parseJsonMapEntries (X.length + 1) [] X := by
  obtain ⟨q, rfl⟩ := hX
  rfl

/-- Parsing the serialized ext-fields object yields the insert-fold of
the entries. -/
theorem parseJsonMap_jsonStrMap (l : List (Str × Str)) (rest : List Nat) :
    parseJsonMap (jsonStrMap l ++ rest) =
      .ok (l.foldl (fun a p => ainsert p.1 p.2 a) [], rest) := by
  cases l with
  | nil => rfl
  | cons kv t =>
    unfold jsonStrMap
    rw [List.cons_append]
    have hsplit : (joinComma ((kv :: t).map
        (fun kv => jsonStr kv.1 ++ 58 :: jsonStr kv.2)) ++ [125]) ++ rest =
        joinComma ((kv :: t).map
          (fun kv => jsonStr kv.1 ++ 58 :: jsonStr kv.2)) ++ (125 :: rest) := by
      simp
    rw [hsplit]
    have hX : ∃ q, joinComma ((kv :: t).map
        (fun kv => jsonStr kv.1 ++ 58 :: jsonStr kv.2)) ++ (125 :: rest) =
        34 :: q := by
      cases t with
      | nil => exact ⟨_, rfl⟩
      | cons kv2 t2 => exact ⟨_, rfl⟩
    rw [parseJsonMap_eq_entries _ hX]
    refine (parseJsonMapEntries_encode t kv _ [] rest ?_).trans rfl
    have := joinComma_entries_length_ge (kv :: t)
    simp only [List.length_cons] at this
    simp only [List.length_append, List.length_cons]
    omega

theorem langOfName?_langName (l : LanguageCode) :
    langOfName? (langName l) = some l := by
  cases l <;> rfl

theorem parseInt_intDec_ascii (i : Int) (c : String) (r : List Nat)
    (h : headNotDigit (ascii c)) (hne : ascii c ≠ []) :
    parseInt (intDec i ++ (ascii c ++ r)) = .ok (i, ascii c ++ r) := by
  apply parseInt_intDec
  cases hc : ascii c with
  | nil => exact absurd hc hne
  | cons b t =>
    rw [hc] at h
    rw [List.cons_append]
    exact h

/-- Decoding an encoded JSON header recovers every field (including
`language`); the ext map comes back as the insert-fold of the
entries. -/
theorem jsonHeaderDecode_encode (h : Header)
    (hc1 : -(2 ^ 15) ≤ h.code) (hc2 : h.code < 2 ^ 15)
    (hv1 : -(2 ^ 15) ≤ h.version) (hv2 : h.version < 2 ^ 15)
    (ho1 : -(2 ^ 31) ≤ h.opaqueId) (ho2 : h.opaqueId < 2 ^ 31)
    (hf1 : -(2 ^ 31) ≤ h.flag) (hf2 : h.flag < 2 ^ 31) :
    jsonHeaderDecode (jsonHeaderEncode h) =
      .ok ⟨h.code, h.language, h.version, h.opaqueId, h.flag, h.remark,
        h.ext_fields.foldl (fun a p => ainsert p.1 p.2 a) []⟩ := by
  unfold jsonHeaderEncode jsonHeaderDecode
  simp only [List.append_assoc]
  rw [expectLit_append]
  dsimp only
  rw [parseInt_intDec_ascii _ ",\"language\":" _ rfl (by decide)]
  dsimp only
  rw [show intInRange (-(2 ^ 15)) (2 ^ 15) h.code = .ok h.code from by
    unfold intInRange
    rw [if_pos ⟨hc1, hc2⟩]]
  dsimp only
  rw [expectLit_append]
  dsimp only
  rw [parseJsonStr_jsonStr]
  dsimp only
  rw [langOfName?_langName]
  dsimp only
  rw [expectLit_append]
  dsimp only
  rw [parseInt_intDec_ascii _ ",\"opaque\":" _ rfl (by decide)]
  dsimp only
  rw [show intInRange (-(2 ^ 15)) (2 ^ 15) h.version = .ok h.version from by
    unfold intInRange
    rw [if_pos ⟨hv1, hv2⟩]]
  dsimp only
  rw [expectLit_append]
  dsimp only
  rw [parseInt_intDec_ascii _ ",\"flag\":" _ rfl (by decide)]
  dsimp only
  rw [show intInRange (-(2 ^ 31)) (2 ^ 31) h.opaqueId = .ok h.opaqueId from by
    unfold intInRange
    rw [if_pos ⟨ho1, ho2⟩]]
  dsimp only
  rw [expectLit_append]
  dsimp only
  rw [parseInt_intDec_ascii _ ",\"remark\":" _ rfl (by decide)]
  dsimp only
  rw [show intInRange (-(2 ^ 31)) (2 ^ 31) h.flag = .ok h.flag from by
    unfold intInRange
    rw [if_pos ⟨hf1, hf2⟩]]
  dsimp only
  rw [expectLit_append]
  dsimp only
  rw [parseJsonStr_jsonStr]
  dsimp only
  rw [expectLit_append]
  dsimp only
  rw [show (ascii "\x7d" : List Nat) = ascii "\x7d" ++ [] from by simp]
  rw [parseJsonMap_jsonStrMap]
  dsimp only
  rfl

/-! ### Claim C1: the frame round trip -/

theorem alookup_eq_of_perm {β : Type} {l l' : List (Str × β)}
    (hp : l.Perm l') :
    (l.map Prod.fst).Nodup → ∀ k, alookup l k = alookup l' k := by
  induction hp with
  | nil =>
    intro _ k
    rfl
  | cons x _ ih =>
    intro hnd k
    rw [List.map_cons, List.nodup_cons] at hnd
    obtain ⟨x1, x2⟩ := x
    simp only [alookup, beq_iff_eq]
    by_cases hx : x1 = k
    · rw [if_pos hx, if_pos hx]
    · rw [if_neg hx, if_neg hx]
      exact ih hnd.2 k
  | swap x y l =>
    intro hnd k
    obtain ⟨x1, x2⟩ := x
    obtain ⟨y1, y2⟩ := y
    simp only [List.map_cons, List.nodup_cons, List.mem_cons] at hnd
    have hxy : y1 ≠ x1 := fun hcon => hnd.1 (Or.inl hcon)
    simp only [alookup, beq_iff_eq]
    by_cases h1 : y1 = k <;> by_cases h2 : x1 = k
    · exact absurd (h1.trans h2.symm) hxy
    · rw [if_pos h1, if_neg h2, if_pos h1]
    · rw [if_neg h1, if_pos h2, if_pos h2]
    · rw [if_neg h1, if_neg h2, if_neg h2, if_neg h1]
  | trans hp₁ _ ih₁ ih₂ =>
    intro hnd k
    refine (ih₁ hnd k).trans (ih₂ ?_ k)
    exact ((hp₁.map Prod.fst).nodup_iff).mp hnd

theorem encode_map_length_le (h : Header) :
    (encode_map h.ext_fields).length ≤ (rmqHeaderEncode h).length := by
  simp only [rmqHeaderEncode, List.length_append]
  omega

/-- C1.  Amended round trip.  For either codec, encoding a well-formed
header whose ext map was iterated in ANY order `ext'` (a permutation of
the canonical entry list) and decoding the frame yields the body back
exactly and a header agreeing with the original on every field — except
`language`, which the compact (RocketMQ) codec forces to `OTHER` because
its encoder writes the fixed `LanguageCode::OTHER` byte instead of
`header.language`; the decoded ext map is lookup-equivalent to the
original, independent of the iteration order. -/
theorem c1_round_trip (codec : HeaderCodecType) (h : Header)
    (ext' : List (Str × Str)) (body : List Nat)
    (hperm : h.ext_fields.Perm ext')
    (hwf : WFHeader h)
    (hlen : (headerEncode codec { h with ext_fields := ext' }).length < 2 ^ 24)
    (htot : 4 + (headerEncode codec { h with ext_fields := ext' }).length +
      body.length < 2 ^ 31) :
    ∃ hdr,
      mqDecode (encode_into codec { h with ext_fields := ext' } body) =
        .ok ⟨hdr, body⟩ [] ∧
      hdr.code = h.code ∧
      hdr.language = (match codec with
        | .rocketMQ => .OTHER
        | .json => h.language) ∧
      hdr.version = h.version ∧ hdr.opaqueId = h.opaqueId ∧
      hdr.flag = h.flag ∧ hdr.remark = h.remark ∧
      ExtEquiv hdr.ext_fields h.ext_fields := by
  obtain ⟨hc1, hc2, hv1, hv2, ho1, ho2, hf1, hf2, hr1, hr2, hext, hel, hnd⟩ :=
    hwf
  have hnd' : (ext'.map Prod.fst).Nodup :=
    ((hperm.map Prod.fst).nodup_iff).mp hnd
  have hequiv : ExtEquiv
      (ext'.foldl (fun a kv => ainsert kv.1 kv.2 a) []) h.ext_fields :=
    fun k => (extEquiv_foldl hnd' k).trans
      (alookup_eq_of_perm hperm hnd k).symm
  rw [encode_into_eq_rawFrame,
    mqDecode_rawFrame _ _ _ hlen (by
      simpa [HEADER_FIXED_LENGTH] using htot),
    codecOfByte?_codecTypeByte]
  cases codec with
  | json =>
    dsimp only [headerDecode, headerEncode]
    rw [jsonHeaderDecode_encode { h with ext_fields := ext' }
      hc1 hc2 hv1 hv2 ho1 ho2 hf1 hf2]
    exact ⟨_, rfl, rfl, rfl, rfl, rfl, rfl, rfl, hequiv⟩
  | rocketMQ =>
    have hwf' : WFHeader { h with ext_fields := ext' } := by
      refine ⟨hc1, hc2, hv1, hv2, ho1, ho2, hf1, hf2, hr1, hr2, ?_, ?_, hnd'⟩
      · intro kv hkv
        exact hext kv (hperm.mem_iff.mpr hkv)
      · have := encode_map_length_le { h with ext_fields := ext' }
        simp only [headerEncode] at hlen
        omega
    dsimp only [headerDecode, headerEncode]
    rw [rmqHeaderDecode_encode _ hwf']
    exact ⟨_, rfl, rfl, rfl, rfl, rfl, rfl, rfl, hequiv⟩

/-- C1 witness: a concrete JAVA header with a two-entry ext map encoded
with the entries in the REVERSED iteration order still round-trips (under
the JSON codec) to the original field values and an equivalent map. -/
theorem c1_round_trip_witness :
    ∃ hdr,
      mqDecode (encode_into .json
        { code := 5, language := .JAVA, version := 1, opaqueId := 2,
          flag := 3, remark := [109],
          ext_fields := [([98], [121]), ([97], [120])] } [55, 66]) =
        .ok ⟨hdr, [55, 66]⟩ [] ∧
      hdr.code = 5 ∧
      hdr.language = (match HeaderCodecType.json with
        | .rocketMQ => .OTHER
        | .json => LanguageCode.JAVA) ∧
      hdr.version = 1 ∧ hdr.opaqueId = 2 ∧
      hdr.flag = 3 ∧ hdr.remark = [109] ∧
      ExtEquiv hdr.ext_fields [([97], [120]), ([98], [121])] :=
  c1_round_trip .json
    { code := 5, language := .JAVA, version := 1, opaqueId := 2,
      flag := 3, remark := [109],
      ext_fields := [([97], [120]), ([98], [121])] }
    [([98], [121]), ([97], [120])] [55, 66]
    (by decide) (by unfold WFHeader; decide) (by decide) (by decide)

/-- C1 counterexample: the compact codec does not round-trip `language`.
A frame encoded from a JAVA header decodes to an OTHER header, because
`RocketMQHeaderCodec::encode` writes the fixed `LanguageCode::OTHER`
byte. -/
theorem c1_counterexample :
    mqDecode (encode_into .rocketMQ
      { code := 0, language := .JAVA, version := 0, opaqueId := 0,
        flag := 0, remark := [], ext_fields := [] } []) =
      .ok ⟨{ code := 0, language := .OTHER, version := 0, opaqueId := 0,
             flag := 0, remark := [], ext_fields := [] }, []⟩ [] ∧
    LanguageCode.OTHER ≠ LanguageCode.JAVA := by
  refine ⟨?_, by decide⟩
  rfl

/-! ### Claim C9: request signing (`RemotingClient::add_signature`)

The `hmac`/`sha1`/`base64` crates the client calls are embedded as
executable definitions: SHA-1 exactly per RFC 3174 (32-bit words carried
as `Nat` with explicit `% 2 ^ 32`), HMAC per RFC 2104 with a 64-byte
block, and standard base64 with `=` padding. -/

/-- 32-bit left rotation: for `x < 2 ^ 32` the two shifted parts occupy
disjoint bit ranges, so `+` is the bitwise or of the Rust `rotate_left`. -/
def rotl32 (n x : Nat) : Nat := (x * 2 ^ n + x / 2 ^ (32 - n)) % 2 ^ 32

/-- Big-endian 32-bit words from a byte stream (a full SHA-1 block yields
16 words; a trailing fragment shorter than 4 bytes is dropped, which
never happens on 64-byte blocks). -/
def toWords32 : List Nat → List Nat
  | b0 :: b1 :: b2 :: b3 :: t =>
    (((b0 * 256 + b1) * 256 + b2) * 256 + b3) :: toWords32 t
  | _ => []

/-- The SHA-1 message-schedule extension, keeping the words generated so
far most-recent-first so that `w[i-3]`, `w[i-8]`, `w[i-14]`, `w[i-16]`
are positions 2, 7, 13, 15. -/
def extendW : Nat → List Nat → List Nat
  | 0, rws => rws
  | n + 1, rws =>
    extendW n (rotl32 1 ((rws.getD 2 0 ^^^ rws.getD 7 0) ^^^
      (rws.getD 13 0 ^^^ rws.getD 15 0)) :: rws)

/-- The 80 SHA-1 rounds over the extended schedule. -/
def sha1Rounds : List Nat → Nat → Nat × Nat × Nat × Nat × Nat →
    Nat × Nat × Nat × Nat × Nat
  | [], _, st => st
  | w :: ws, i, (a, b, c, d, e) =>
    let f := if i < 20 then (b &&& c) ||| ((2 ^ 32 - 1 - b) &&& d)
      else if i < 40 then (b ^^^ c) ^^^ d
      else if i < 60 then ((b &&& c) ||| (b &&& d)) ||| (c &&& d)
      else (b ^^^ c) ^^^ d
    let k := if i < 20 then 1518500249 else if i < 40 then 1859775393
      else if i < 60 then 2400959708 else 3395469782
    sha1Rounds ws (i + 1)
      ((rotl32 5 a + f + e + k + w) % 2 ^ 32, a, rotl32 30 b, c, d)

/-- One SHA-1 compression of a 64-byte block into the chaining state. -/
def sha1Compress (st : Nat × Nat × Nat × Nat × Nat) (block : List Nat) :
    Nat × Nat × Nat × Nat × Nat :=
  let ws := (extendW 64 (toWords32 block).reverse).reverse
  match st, sha1Rounds ws 0 st with
  | (h0, h1, h2, h3, h4), (a, b, c, d, e) =>
    ((h0 + a) % 2 ^ 32, (h1 + b) % 2 ^ 32, (h2 + c) % 2 ^ 32,
      (h3 + d) % 2 ^ 32, (h4 + e) % 2 ^ 32)

/-- Fold the compression over the given number of 64-byte blocks. -/
def sha1Blocks : Nat → List Nat → Nat × Nat × Nat × Nat × Nat →
    Nat × Nat × Nat × Nat × Nat
  | 0, _, st => st
  | n + 1, bytes, st =>
    sha1Blocks n (bytes.drop 64) (sha1Compress st (bytes.take 64))

def be64 (n : Nat) : List Nat :=
  [n / 2 ^ 56 % 256, n / 2 ^ 48 % 256, n / 2 ^ 40 % 256, n / 2 ^ 32 % 256,
    n / 2 ^ 24 % 256, n / 2 ^ 16 % 256, n / 2 ^ 8 % 256, n % 256]

/-- SHA-1 padding: `0x80`, zeros to 56 mod 64, 64-bit big-endian bit
length. -/
def sha1Pad (msg : List Nat) : List Nat :=
  msg ++ 128 :: List.replicate ((119 - msg.length % 64) % 64) 0 ++
    be64 (msg.length * 8)

def wordBytes (w : Nat) : List Nat :=
  [w / 2 ^ 24 % 256, w / 2 ^ 16 % 256, w / 2 ^ 8 % 256, w % 256]

/-- SHA-1 of a byte string (matches the standard test vectors, e.g.
`sha1 [] = da39…0709` and `sha1 "abc" = a999…d89d`). -/
def sha1 (msg : List Nat) : List Nat :=
  let p := sha1Pad msg
  match sha1Blocks (p.length / 64) p
      (1732584193, 4023233417, 2562383102, 271733878, 3285377520) with
  | (h0, h1, h2, h3, h4) =>
    wordBytes h0 ++ wordBytes h1 ++ wordBytes h2 ++ wordBytes h3 ++
      wordBytes h4

/-- HMAC-SHA1 (`HmacSha1::new_from_slice` accepts any key length: longer
than the 64-byte block it is hashed first, then zero-padded). -/
def hmacSha1 (key msg : List Nat) : List Nat :=
  let k0 := if 64 < key.length then sha1 key else key
  let kp := k0 ++ List.replicate (64 - k0.length) 0
  sha1 ((kp.map (fun b => b ^^^ 92)) ++
    sha1 ((kp.map (fun b => b ^^^ 54)) ++ msg))

def b64Char (n : Nat) : Nat :=
  if n < 26 then 65 + n
  else if n < 52 then 97 + (n - 26)
  else if n < 62 then 48 + (n - 52)
  else if n = 62 then 43 else 47

/-- `base64::encode`: the standard alphabet with `=` padding. -/
def base64Encode : List Nat → List Nat
  | b0 :: b1 :: b2 :: t =>
    let n := (b0 * 256 + b1) * 256 + b2
    b64Char (n / 2 ^ 18) :: b64Char (n / 2 ^ 12 % 64) ::
      b64Char (n / 2 ^ 6 % 64) :: b64Char (n % 64) :: base64Encode t
  | [b0, b1] =>
    let n := (b0 * 256 + b1) * 4
    [b64Char (n / 2 ^ 12), b64Char (n / 2 ^ 6 % 64), b64Char (n % 64), 61]
  | [b0] =>
    let n := b0 * 16
    [b64Char (n / 2 ^ 6), b64Char (n % 64), 61, 61]
  | [] => []

/-- `remoting/client.rs`: `Credentials`. -/
structure Credentials where
  access_key : Str
  secret_key : Str
  security_token : Option Str
deriving DecidableEq

/-- `RemotingClient::calculate_signature`: HMAC-SHA1 with the secret key,
base64-encoded. -/
def calculate_signature (data key : Str) : Str :=
  base64Encode (hmacSha1 key data)

/-- The `if let Some(security_token)` block of `add_signature`: the entry
inserted into both the side map and the command's ext map when a
non-empty token is configured (empty list = no insertion). -/
def tokenEntries (c : Credentials) : List (Str × Str) :=
  match c.security_token with
  | some tok => if tok.isEmpty then [] else [(ascii "SecurityToken", tok)]
  | none => []

/-- The command's ext map at the time the loop `for (k, v) in
&cmd.header.ext_fields` runs (after the SecurityToken insertion); its
association-list order stands for the map's iteration order. -/
def signExt (c : Credentials) (cmd : RemotingCommand) : List (Str × Str) :=
  (tokenEntries c).foldl (fun a kv => ainsert kv.1 kv.2 a)
    cmd.header.ext_fields

/-- The side map `m`: `AccessKey` ↦ the credential, then the token entry,
then every entry of the (token-augmented) ext map. -/
def signMap (c : Credentials) (cmd : RemotingCommand) : List (Str × Str) :=
  (signExt c cmd).foldl (fun a kv => ainsert kv.1 kv.2 a)
    ((tokenEntries c).foldl (fun a kv => ainsert kv.1 kv.2 a)
      [(ascii "AccessKey", c.access_key)])

/-- The signed content: `order` is the vector `["AccessKey"]` followed by
the ext keys in iteration order, sorted (`order.sort()`), possibly with
duplicates; `content` concatenates `m[key]` over it, then the body. -/
def signContent (c : Credentials) (cmd : RemotingCommand) : Str :=
  (sortByKey (fun k => k)
    (ascii "AccessKey" :: (signExt c cmd).map Prod.fst)).flatMap
      (fun k => (alookup (signMap c cmd) k).getD []) ++ cmd.body

/-- `RemotingClient::add_signature` (client.rs:132-166): with no
credentials the command is returned untouched; otherwise the Signature
and then the AccessKey are inserted into the (token-augmented) ext
map. -/
def add_signature (credentials : Option Credentials)
    (cmd : RemotingCommand) : RemotingCommand :=
  match credentials with
  | none => cmd
  | some c =>
    { cmd with header := { cmd.header with
        ext_fields :=
          ainsert (ascii "AccessKey") c.access_key
            (ainsert (ascii "Signature")
              (calculate_signature (signContent c cmd) c.secret_key)
              (signExt c cmd)) } }

/-- The content the spec describes: the ext values ordered by ascending
key (each key once), then the body. -/
def canonicalContent (ext : List (Str × Str)) (body : Str) : Str :=
  (sortByKey Prod.fst ext).flatMap Prod.snd ++ body

theorem alookup_eq_none_iff {β : Type} (l : List (Str × β)) (k : Str) :
    alookup l k = none ↔ k ∉ l.map Prod.fst := by
  induction l with
  | nil => simp [alookup]
  | cons kv t ih =>
    obtain ⟨k', v⟩ := kv
    simp only [alookup, List.map_cons, List.mem_cons, beq_iff_eq]
    by_cases h : k' = k
    · subst h
      simp
    · rw [if_neg h, ih]
      constructor
      · intro hnm hor
        rcases hor with heq | hmem
        · exact h heq.symm
        · exact hnm hmem
      · intro hcon hm
        exact hcon (Or.inr hm)

theorem mem_keys_ainsert {β : Type} (k : Str) (v : β) (l : List (Str × β))
    (a : Str) :
    a ∈ (ainsert k v l).map Prod.fst ↔ a = k ∨ a ∈ l.map Prod.fst := by
  induction l with
  | nil => simp [ainsert]
  | cons kv t ih =>
    obtain ⟨k', v'⟩ := kv
    unfold ainsert
    by_cases h : k' = k
    · subst h
      simp only [beq_self_eq_true, if_pos, List.map_cons, List.mem_cons]
      tauto
    · rw [if_neg (by simpa using h)]
      simp only [List.map_cons, List.mem_cons, ih]
      tauto

theorem ainsert_keys_nodup {β : Type} (k : Str) (v : β)
    {l : List (Str × β)} (hnd : (l.map Prod.fst).Nodup) :
    ((ainsert k v l).map Prod.fst).Nodup := by
  induction l with
  | nil => simp [ainsert]
  | cons kv t ih =>
    obtain ⟨k', v'⟩ := kv
    rw [List.map_cons, List.nodup_cons] at hnd
    unfold ainsert
    by_cases h : k' = k
    · subst h
      simp only [beq_self_eq_true, if_pos, List.map_cons, List.nodup_cons]
      exact hnd
    · rw [if_neg (by simpa using h)]
      rw [List.map_cons, List.nodup_cons]
      refine ⟨?_, ih hnd.2⟩
      intro hcon
      rcases (mem_keys_ainsert k v t k').mp hcon with heq | hmem
      · exact h heq
      · exact hnd.1 hmem

theorem foldl_ainsert_keys_nodup {β : Type} (T : List (Str × β)) :
    ∀ acc : List (Str × β), (acc.map Prod.fst).Nodup →
      ((T.foldl (fun a kv => ainsert kv.1 kv.2 a) acc).map Prod.fst).Nodup := by
  induction T with
  | nil =>
    intro acc h
    exact h
  | cons kv t ih =>
    intro acc h
    exact ih _ (ainsert_keys_nodup kv.1 kv.2 h)

theorem extEquiv_ainsert (k v : Str) {l₁ l₂ : List (Str × Str)}
    (h : ExtEquiv l₁ l₂) : ExtEquiv (ainsert k v l₁) (ainsert k v l₂) := by
  intro k'
  rw [alookup_ainsert, alookup_ainsert, h k']

theorem extEquiv_foldl_ainsert2 (T : List (Str × Str)) :
    ∀ {l₁ l₂ : List (Str × Str)}, ExtEquiv l₁ l₂ →
      ExtEquiv (T.foldl (fun a kv => ainsert kv.1 kv.2 a) l₁)
        (T.foldl (fun a kv => ainsert kv.1 kv.2 a) l₂) := by
  induction T with
  | nil =>
    intro l₁ l₂ h
    exact h
  | cons kv t ih =>
    intro l₁ l₂ h
    exact ih (extEquiv_ainsert kv.1 kv.2 h)

theorem keys_perm_of_extEquiv {l₁ l₂ : List (Str × Str)}
    (hnd₁ : (l₁.map Prod.fst).Nodup) (hnd₂ : (l₂.map Prod.fst).Nodup)
    (h : ExtEquiv l₁ l₂) : (l₁.map Prod.fst).Perm (l₂.map Prod.fst) := by
  rw [List.perm_ext_iff_of_nodup hnd₁ hnd₂]
  intro a
  constructor
  · intro hmem
    by_contra hcon
    exact (alookup_eq_none_iff l₁ a).mp
      ((h a).trans ((alookup_eq_none_iff l₂ a).mpr hcon)) hmem
  · intro hmem
    by_contra hcon
    exact (alookup_eq_none_iff l₂ a).mp
      ((h a).symm.trans ((alookup_eq_none_iff l₁ a).mpr hcon)) hmem

theorem ainsert_append_of_not_mem {β : Type} (k : Str) (v : β) :
    ∀ l : List (Str × β), k ∉ l.map Prod.fst →
      ainsert k v l = l ++ [(k, v)] := by
  intro l
  induction l with
  | nil =>
    intro _
    rfl
  | cons kv t ih =>
    intro h
    obtain ⟨k', v'⟩ := kv
    simp only [List.map_cons, List.mem_cons] at h
    push_neg at h
    unfold ainsert
    rw [if_neg (by simpa using fun hc : k' = k => h.1 hc.symm)]
    rw [ih h.2, List.cons_append]

theorem alookup_of_mem_nodup {β : Type} :
    ∀ {l : List (Str × β)}, (l.map Prod.fst).Nodup →
      ∀ {kv : Str × β}, kv ∈ l → alookup l kv.1 = some kv.2 := by
  intro l
  induction l with
  | nil =>
    intro _ kv hm
    cases hm
  | cons kv' t ih =>
    intro hnd kv hm
    obtain ⟨k', v'⟩ := kv'
    rw [List.map_cons, List.nodup_cons] at hnd
    rcases List.mem_cons.mp hm with rfl | hm'
    · simp [alookup]
    · unfold alookup
      by_cases h : k' = kv.1
      · subst h
        exact absurd (List.mem_map_of_mem Prod.fst hm') hnd.1
      · rw [if_neg (by simpa using h)]
        exact ih hnd.2 hm'

theorem flatMap_congr_mem {α β : Type} (l : List α) (f g : α → List β)
    (h : ∀ x ∈ l, f x = g x) : l.flatMap f = l.flatMap g := by
  induction l with
  | nil => rfl
  | cons x t ih =>
    simp only [List.flatMap_cons]
    rw [h x (List.mem_cons_self x t),
      ih (fun y hy => h y (List.mem_cons_of_mem x hy))]

theorem flatMap_map_f {α γ δ : Type} (f : α → γ) (g : γ → List δ) :
    ∀ l : List α, (l.map f).flatMap g = l.flatMap (fun x => g (f x)) := by
  intro l
  induction l with
  | nil => rfl
  | cons x t ih =>
    simp only [List.map_cons, List.flatMap_cons, ih]

theorem insertSorted_map_key {α : Type} (κ : α → Str) (x : α) :
    ∀ l : List α, (insertSorted κ x l).map κ =
      insertSorted (fun k => k) (κ x) (l.map κ) := by
  intro l
  induction l with
  | nil => rfl
  | cons y t ih =>
    simp only [List.map_cons]
    unfold insertSorted
    by_cases h : ltStr (κ x) (κ y) = true
    · rw [if_pos h, if_pos h]
      simp only [List.map_cons]
    · rw [if_neg h, if_neg h]
      simp only [List.map_cons, ih]

theorem sortByKey_map_key {α : Type} (κ : α → Str) (l : List α) :
    (sortByKey κ l).map κ = sortByKey (fun k => k) (l.map κ) := by
  have hg : ∀ (m acc : List α),
      (List.foldl (fun a x => insertSorted κ x a) acc m).map κ =
        List.foldl (fun a x => insertSorted (fun k => k) x a)
          (acc.map κ) (m.map κ) := by
    intro m
    induction m with
    | nil =>
      intro acc
      rfl
    | cons x t ih =>
      intro acc
      simp only [List.foldl_cons, List.map_cons]
      rw [ih, insertSorted_map_key]
  exact hg l []

/-- C9 (amended).  (1) Signing is deterministic: two commands whose ext
maps hold the same entries (any iteration orders) and whose bodies are
equal receive the identical Signature value, because the key vector is
sorted before the content is assembled.  (2) The claimed content formula
holds only without an `AccessKey` collision: when the ext map does not
already contain `AccessKey` (and no security token is configured), the
stored Signature is exactly the HMAC-SHA1/base64 of the values of
`ext_fields ∪ buggy{AccessKey ↦ credential}` ordered by ascending key,
then the body.  (With an `AccessKey` entry present, `order` holds the key
twice and its value is concatenated twice — see the counterexample.) -/
theorem c9_signing (c : Credentials) (cmd₁ cmd₂ : RemotingCommand)
    (hnd₁ : (cmd₁.header.ext_fields.map Prod.fst).Nodup)
    (hnd₂ : (cmd₂.header.ext_fields.map Prod.fst).Nodup)
    (hequiv : ExtEquiv cmd₁.header.ext_fields cmd₂.header.ext_fields)
    (hbody : cmd₁.body = cmd₂.body) :
    alookup (add_signature (some c) cmd₁).header.ext_fields
        (ascii "Signature") =
      alookup (add_signature (some c) cmd₂).header.ext_fields
        (ascii "Signature") ∧
    (c.security_token = none →
      alookup cmd₁.header.ext_fields (ascii "AccessKey") = none →
      alookup (add_signature (some c) cmd₁).header.ext_fields
          (ascii "Signature") =
        some (calculate_signature
          (canonicalContent
            (ainsert (ascii "AccessKey") c.access_key
              cmd₁.header.ext_fields)
            cmd₁.body)
          c.secret_key)) := by
  have hlook : ∀ cmd : RemotingCommand,
      alookup (add_signature (some c) cmd).header.ext_fields
        (ascii "Signature") =
        some (calculate_signature (signContent c cmd) c.secret_key) := by
    intro cmd
    simp only [add_signature]
    rw [alookup_ainsert, if_neg (by decide), alookup_ainsert, if_pos rfl]
  have hnd₁' : ((signExt c cmd₁).map Prod.fst).Nodup :=
    foldl_ainsert_keys_nodup (tokenEntries c) _ hnd₁
  have hnd₂' : ((signExt c cmd₂).map Prod.fst).Nodup :=
    foldl_ainsert_keys_nodup (tokenEntries c) _ hnd₂
  constructor
  · have hext' : ExtEquiv (signExt c cmd₁) (signExt c cmd₂) :=
      extEquiv_foldl_ainsert2 (tokenEntries c) hequiv
    have hperm : ((signExt c cmd₁).map Prod.fst).Perm
        ((signExt c cmd₂).map Prod.fst) :=
      keys_perm_of_extEquiv hnd₁' hnd₂' hext'
    have hsorteq : sortByKey (fun k => k)
        (ascii "AccessKey" :: (signExt c cmd₁).map Prod.fst) =
        sortByKey (fun k => k)
          (ascii "AccessKey" :: (signExt c cmd₂).map Prod.fst) :=
      sortByKey_eq_of_perm _ _ _ (hperm.cons _) (fun x _ y _ h => h)
    have hcontent : signContent c cmd₁ = signContent c cmd₂ := by
      unfold signContent
      rw [hsorteq, hbody]
      refine congrArg (fun l => l ++ cmd₂.body) ?_
      refine flatMap_congr_mem _ _ _ (fun k _ => ?_)
      unfold signMap
      rw [alookup_foldl_ainsert hnd₁', alookup_foldl_ainsert hnd₂',
        hext' k]
    rw [hlook cmd₁, hlook cmd₂, hcontent]
  · intro htok hnone
    rw [hlook cmd₁]
    refine congrArg (fun x => some (calculate_signature x c.secret_key)) ?_
    have htokE : tokenEntries c = [] := by
      unfold tokenEntries
      rw [htok]
    have hsignExt : signExt c cmd₁ = cmd₁.header.ext_fields := by
      unfold signExt
      rw [htokE]
      rfl
    have hAKnm : ascii "AccessKey" ∉ cmd₁.header.ext_fields.map Prod.fst :=
      (alookup_eq_none_iff _ _).mp hnone
    have hains : ainsert (ascii "AccessKey") c.access_key
        cmd₁.header.ext_fields =
        cmd₁.header.ext_fields ++ [(ascii "AccessKey", c.access_key)] :=
      ainsert_append_of_not_mem _ _ _ hAKnm
    have hkeyperm : (ascii "AccessKey" ::
        cmd₁.header.ext_fields.map Prod.fst).Perm
        ((cmd₁.header.ext_fields ++
          [(ascii "AccessKey", c.access_key)]).map Prod.fst) := by
      rw [List.map_append]
      exact (List.perm_append_singleton _ _).symm
    unfold signContent canonicalContent
    rw [hsignExt, hains]
    refine congrArg (fun l => l ++ cmd₁.body) ?_
    rw [sortByKey_eq_of_perm (fun k => k) _ _ hkeyperm (fun x _ y _ h => h)]
    rw [← sortByKey_map_key Prod.fst, flatMap_map_f]
    refine flatMap_congr_mem _ _ _ (fun kv hkv => ?_)
    have hkvmem : kv ∈ cmd₁.header.ext_fields ++
        [(ascii "AccessKey", c.access_key)] :=
      (sortByKey_perm _ _).subset hkv
    unfold signMap
    rw [htokE, hsignExt]
    rw [show List.foldl (fun a kv => ainsert kv.1 kv.2 a)
      [(ascii "AccessKey", c.access_key)] ([] : List (Str × Str)) =
      [(ascii "AccessKey", c.access_key)] from rfl]
    rw [alookup_foldl_ainsert hnd₁]
    rcases List.mem_append.mp hkvmem with hmem | hmem
    · rw [alookup_of_mem_nodup hnd₁ hmem]
      rfl
    · rw [List.mem_singleton] at hmem
      subst hmem
      rw [hnone]
      rfl

/-- C9 witness: concrete credentials and a two-entry ext map presented in
the two opposite iteration orders receive the same Signature; with no
AccessKey collision the Signature matches the canonical sorted-values
HMAC. -/
theorem c9_signing_witness :
    (alookup (add_signature (some (Credentials.mk [97] [107] none))
        (RemotingCommand.mk
          (Header.mk 0 .OTHER 0 0 0 [] [([97], [120]), ([98], [121])])
          [9])).header.ext_fields (ascii "Signature") =
      alookup (add_signature (some (Credentials.mk [97] [107] none))
        (RemotingCommand.mk
          (Header.mk 0 .OTHER 0 0 0 [] [([98], [121]), ([97], [120])])
          [9])).header.ext_fields (ascii "Signature")) ∧
    alookup (add_signature (some (Credentials.mk [97] [107] none))
        (RemotingCommand.mk
          (Header.mk 0 .OTHER 0 0 0 [] [([97], [120]), ([98], [121])])
          [9])).header.ext_fields (ascii "Signature") =
      some (calculate_signature
        (canonicalContent
          (ainsert (ascii "AccessKey") [97] [([97], [120]), ([98], [121])])
          [9])
        [107]) :=
  have h := c9_signing (Credentials.mk [97] [107] none)
    (RemotingCommand.mk
      (Header.mk 0 .OTHER 0 0 0 [] [([97], [120]), ([98], [121])]) [9])
    (RemotingCommand.mk
      (Header.mk 0 .OTHER 0 0 0 [] [([98], [121]), ([97], [120])]) [9])
    (by decide) (by decide)
    (fun k => alookup_eq_of_perm (by decide) (by decide) k) rfl
  ⟨h.1, h.2 rfl (by decide)⟩

set_option maxRecDepth 10000 in
/-- C9 counterexample: with an `AccessKey` entry already in the ext map,
`order` holds the key twice, so the code signs its value twice over —
the stored Signature is the HMAC of `"xx"`, not of the claimed canonical
content (`"x"` over the command's own ext values, or `"a"` once the
credential entry replaces it), and both canonical signatures differ from
the stored one. -/
theorem c9_counterexample :
    alookup (add_signature (some (Credentials.mk [97] [107] none))
        (RemotingCommand.mk
          (Header.mk 0 .OTHER 0 0 0 [] [(ascii "AccessKey", [120])])
          [])).header.ext_fields (ascii "Signature") =
      some (calculate_signature [120, 120] [107]) ∧
    calculate_signature [120, 120] [107] ≠
      calculate_signature [120] [107] ∧
    canonicalContent [(ascii "AccessKey", [120])] [] = [120] ∧
    calculate_signature [120, 120] [107] ≠
      calculate_signature [97] [107] ∧
    canonicalContent
      (ainsert (ascii "AccessKey") [97] [(ascii "AccessKey", [120])]) [] =
      [97] := by
  refine ⟨by decide, by decide, by decide, by decide, by decide⟩

end RocketMQ
